import Mathlib

/-!
Verification of the double-ended priority queue (`DoubleHeap`) from `src/depq.rs`
and the heap validity check from `src/pq.rs`.

Arrays (`Vec<(T, usize)>`) are modelled as `List (α × Nat)`; indexing `v[i]`
is modelled by `nth v i` (`getD` with a default; all accesses made by the
program on states satisfying its invariants are in bounds, which is certified
separately by the `_ok` bounds-checked variants below).  The two `while`
loops are modelled by structurally recursive functions carrying an explicit
iteration counter; the counter is initialised with a bound that is proved
sufficient (`fix_bu_go_congr`, `fix_td_go_congr`), so the wrapper functions
agree with the unbounded loops of the source.
-/

namespace Aisd

/-- `v[i]` on a `Vec`: total read with a default, used where the source indexes. -/
def nth {β : Type _} [Inhabited β] (v : List β) (i : Nat) : β :=
  v.getD i default

/-- `Vec::swap(i, j)`. -/
def vswap {β : Type _} [Inhabited β] (v : List β) (i j : Nat) : List β :=
  (v.set i (nth v j)).set j (nth v i)

/-- `PartialOrd::lt` on a totally ordered element type. -/
def ltb {α : Type} [LinearOrder α] (a b : α) : Bool :=
  decide (a < b)

/-- `PartialOrd::gt` on a totally ordered element type. -/
def gtb {α : Type} [LinearOrder α] (a b : α) : Bool :=
  decide (b < a)

/-- The `DoubleHeap` struct: two arrays of `(value, mirror index)` slots. -/
structure DoubleHeap (α : Type) where
  min_array : List (α × Nat)
  max_array : List (α × Nat)
deriving DecidableEq

namespace DoubleHeap

variable {α : Type} [Inhabited α]

/-- `DoubleHeap::new()`. -/
def new : DoubleHeap α := ⟨[], []⟩

/-- `DoubleHeap::swap`: swap slots `i`, `j` of the left heap, rewriting the
mirror fields of their counterparts in the right heap.  Returns the two
updated arrays `(l, r)`. -/
def swap (l r : List (α × Nat)) (i j : Nat) :
    List (α × Nat) × List (α × Nat) :=
  let r1 := r.set (nth l i).2 ((nth r (nth l i).2).1, j)
  let r2 := r1.set (nth l j).2 ((nth r1 (nth l j).2).1, i)
  (vswap l i j, r2)

/-- The `while` loop of `fix_heap_property_bottom_up_aux`, with an explicit
iteration counter (the loop index strictly decreases, so `i + 1` iterations
always suffice: `fix_bu_go_congr`). -/
def fix_bu_go (fuel : Nat) (l r : List (α × Nat)) (i : Nat)
    (cmp : α → α → Bool) : List (α × Nat) × List (α × Nat) :=
  match fuel with
  | 0 => (l, r)
  | fuel + 1 =>
    if i = 0 then (l, r)
    else
      let parent := (i - 1) / 2
      if cmp (nth l i).1 (nth l parent).1 then
        let p := swap l r i parent
        fix_bu_go fuel p.1 p.2 parent cmp
      else (l, r)

/-- `DoubleHeap::fix_heap_property_bottom_up_aux`. -/
def fix_heap_property_bottom_up_aux (l r : List (α × Nat)) (i : Nat)
    (cmp : α → α → Bool) : List (α × Nat) × List (α × Nat) :=
  fix_bu_go (i + 1) l r i cmp

/-- The `loop` of `fix_heap_property_top_down_aux`, with an explicit iteration
counter (the loop index strictly increases and is bounded by the array length,
so `l.length + 1` iterations always suffice: `fix_td_go_congr`). -/
def fix_td_go (fuel : Nat) (l r : List (α × Nat)) (i : Nat)
    (lt gt : α → α → Bool) : List (α × Nat) × List (α × Nat) :=
  match fuel with
  | 0 => (l, r)
  | fuel + 1 =>
    let left := 2 * i + 1
    let right := 2 * i + 2
    if l.length > right then
      let child := if lt (nth l left).1 (nth l right).1 then left else right
      if gt (nth l i).1 (nth l child).1 then
        let p := swap l r i child
        fix_td_go fuel p.1 p.2 child lt gt
      else (l, r)
    else if l.length > left then
      if gt (nth l i).1 (nth l left).1 then
        let p := swap l r i left
        fix_td_go fuel p.1 p.2 left lt gt
      else (l, r)
    else (l, r)

/-- `DoubleHeap::fix_heap_property_top_down_aux`. -/
def fix_heap_property_top_down_aux (l r : List (α × Nat)) (i : Nat)
    (lt gt : α → α → Bool) : List (α × Nat) × List (α × Nat) :=
  fix_td_go (l.length + 1) l r i lt gt

variable [LinearOrder α]

/-- `DoubleHeap::fix_heap_property_bottom_up`: fix both heaps bottom-up. -/
def fix_heap_property_bottom_up (h : DoubleHeap α) (min_i max_i : Nat) :
    DoubleHeap α :=
  let p := fix_heap_property_bottom_up_aux h.min_array h.max_array min_i ltb
  let q := fix_heap_property_bottom_up_aux p.2 p.1 max_i gtb
  ⟨q.2, q.1⟩

/-- `DEPQ::ins` for `DoubleHeap`. -/
def ins (h : DoubleHeap α) (item : α) : DoubleHeap α :=
  let i := h.min_array.length
  fix_heap_property_bottom_up
    ⟨h.min_array ++ [(item, i)], h.max_array ++ [(item, i)]⟩ i i

/-- `DEPQ::ins_all` (the default method: insert each element in order). -/
def ins_all (h : DoubleHeap α) (v : List α) : DoubleHeap α :=
  v.foldl ins h

/-- `DoubleHeap::del_aux`: remove the left heap's root element from both
heaps.  Returns the removed value together with the updated arrays. -/
def del_aux (l r : List (α × Nat)) (cmpl cmpr : α → α → Bool) :
    Option α × List (α × Nat) × List (α × Nat) :=
  if l.length = 0 then (none, l, r)
  else if l.length = 1 then (some (nth l 0).1, [], [])
  else
    let last := l.length - 1
    let p := swap l r 0 last
    let l1 := p.1
    let r1 := p.2
    let result := (nth l1 last).1
    let ri := (nth l1 last).2
    let l2 := l1.dropLast
    if ri = last then
      let r2 := r1.dropLast
      let q := fix_heap_property_top_down_aux l2 r2 0 cmpl cmpr
      (some result, q.1, q.2)
    else
      let l3 := l2.set (nth r1 last).2 ((nth l2 (nth r1 last).2).1, ri)
      let r3 := (vswap r1 ri last).dropLast
      let q := fix_heap_property_top_down_aux l3 r3 0 cmpl cmpr
      let q2 := fix_heap_property_bottom_up_aux q.2 q.1 ri cmpr
      (some result, q2.2, q2.1)

/-- The heapify loop of `make_heap`: `for i in (0 .. s).rev()`, fixing the
heap property top-down at `i` in the min-array and then in the max-array. -/
def make_heap_loop : List (α × Nat) → List (α × Nat) → Nat →
    List (α × Nat) × List (α × Nat)
  | l, r, 0 => (l, r)
  | l, r, i + 1 =>
    let p := fix_heap_property_top_down_aux l r i ltb gtb
    let q := fix_heap_property_top_down_aux p.2 p.1 i gtb ltb
    make_heap_loop q.2 q.1 i

/-- `DoubleHeap::make_heap`: build both arrays with identity mirrors, then
heapify each from the last index down to the root. -/
def make_heap (v : List α) : DoubleHeap α :=
  let minA := v.enum.map (fun p => (p.2, p.1))
  let maxA := v.enum.map (fun p => (p.2, p.1))
  let q := make_heap_loop minA maxA minA.length
  ⟨q.1, q.2⟩

/-- `DEPQ::is_empty` for `DoubleHeap`. -/
def is_empty (h : DoubleHeap α) : Bool :=
  h.min_array.isEmpty

/-- `DEPQ::size` for `DoubleHeap`. -/
def size (h : DoubleHeap α) : Nat :=
  h.min_array.length

/-- `DEPQ::min` for `DoubleHeap`. -/
def min (h : DoubleHeap α) : Option α :=
  if h.size = 0 then none else some (nth h.min_array 0).1

/-- `DEPQ::max` for `DoubleHeap`. -/
def max (h : DoubleHeap α) : Option α :=
  if h.size = 0 then none else some (nth h.max_array 0).1

/-- `DEPQ::del_min` for `DoubleHeap`: the removed element and the new state. -/
def del_min (h : DoubleHeap α) : Option α × DoubleHeap α :=
  let p := del_aux h.min_array h.max_array ltb gtb
  (p.1, ⟨p.2.1, p.2.2⟩)

/-- `DEPQ::del_max` for `DoubleHeap`: the removed element and the new state. -/
def del_max (h : DoubleHeap α) : Option α × DoubleHeap α :=
  let p := del_aux h.max_array h.min_array gtb ltb
  (p.1, ⟨p.2.2, p.2.1⟩)

end DoubleHeap

namespace Heap

/-- `Heap::is_heap_aux` from `src/pq.rs`: check that no node with children
violates the comparison against an existing child. -/
def is_heap_aux {α : Type} [Inhabited α] (v : List α) (cmp : α → α → Bool) :
    Bool :=
  if v.length > 0 then
    let last := v.length - 1
    (List.range last).all fun i =>
      let l := 2 * i + 1
      let r := 2 * i + 2
      if r ≤ last then
        !(cmp (nth v i) (nth v l)) && !(cmp (nth v i) (nth v r))
      else if l ≤ last then
        !(cmp (nth v i) (nth v l))
      else true
  else true

end Heap

namespace DoubleHeap

variable {α : Type} [Inhabited α]

/-- Bounds check for every index access performed by `DoubleHeap::swap`:
`l[i]`, `l[j]`, `r[l[i].1]`, `r[l[j].1]` and `l.swap(i, j)`. -/
def swap_ok (l r : List (α × Nat)) (i j : Nat) : Bool :=
  decide (i < l.length) && decide (j < l.length) &&
  decide ((nth l i).2 < r.length) && decide ((nth l j).2 < r.length)

/-- Bounds checks of the bottom-up sift loop (accesses `l[current]`,
`l[parent]` and the accesses of `swap`). -/
def fix_bu_ok_go (fuel : Nat) (l r : List (α × Nat)) (i : Nat)
    (cmp : α → α → Bool) : Bool :=
  match fuel with
  | 0 => true
  | fuel + 1 =>
    if i = 0 then true
    else
      let parent := (i - 1) / 2
      decide (i < l.length) && decide (parent < l.length) &&
      (if cmp (nth l i).1 (nth l parent).1 then
        swap_ok l r i parent &&
        fix_bu_ok_go fuel (swap l r i parent).1 (swap l r i parent).2
          parent cmp
      else true)

def fix_bu_ok (l r : List (α × Nat)) (i : Nat) (cmp : α → α → Bool) : Bool :=
  fix_bu_ok_go (i + 1) l r i cmp

/-- Bounds checks of the top-down sift loop. -/
def fix_td_ok_go (fuel : Nat) (l r : List (α × Nat)) (i : Nat)
    (lt gt : α → α → Bool) : Bool :=
  match fuel with
  | 0 => true
  | fuel + 1 =>
    let left := 2 * i + 1
    let right := 2 * i + 2
    if l.length > right then
      decide (i < l.length) &&
      (let child := if lt (nth l left).1 (nth l right).1 then left else right
       if gt (nth l i).1 (nth l child).1 then
         swap_ok l r i child &&
         fix_td_ok_go fuel (swap l r i child).1 (swap l r i child).2
           child lt gt
       else true)
    else if l.length > left then
      decide (i < l.length) &&
      (if gt (nth l i).1 (nth l left).1 then
        swap_ok l r i left &&
        fix_td_ok_go fuel (swap l r i left).1 (swap l r i left).2 left lt gt
      else true)
    else true

def fix_td_ok (l r : List (α × Nat)) (i : Nat) (lt gt : α → α → Bool) :
    Bool :=
  fix_td_ok_go (l.length + 1) l r i lt gt

/-- Bounds checks of every index access performed by `del_aux`: the initial
swap, the `pop().unwrap()`, the accesses `r[last]`, `l[r[last].1]`,
`r.swap(ri, last)` of the non-last branch, and both sift fix-ups. -/
def del_aux_ok (l r : List (α × Nat)) (cmpl cmpr : α → α → Bool) : Bool :=
  if l.length = 0 then true
  else if l.length = 1 then decide (0 < l.length)
  else
    let last := l.length - 1
    swap_ok l r 0 last &&
    (let p := swap l r 0 last
     decide (last < p.1.length) &&
     (let ri := (nth p.1 last).2
      let l2 := p.1.dropLast
      if ri = last then
        fix_td_ok l2 p.2.dropLast 0 cmpl cmpr
      else
        decide (last < p.2.length) && decide ((nth p.2 last).2 < l2.length) &&
        decide (ri < p.2.length) &&
        (let l3 := l2.set (nth p.2 last).2 ((nth l2 (nth p.2 last).2).1, ri)
         let r3 := (vswap p.2 ri last).dropLast
         fix_td_ok l3 r3 0 cmpl cmpr &&
         (let q := fix_heap_property_top_down_aux l3 r3 0 cmpl cmpr
          fix_bu_ok q.2 q.1 ri cmpr))))

end DoubleHeap

section Invariants

variable {α : Type} [Inhabited α]

/-- `c` is one of the two array-encoded children of node `i`. -/
def ChildOf (i c : Nat) : Prop :=
  c = 2 * i + 1 ∨ c = 2 * i + 2

instance (i c : Nat) : Decidable (ChildOf i c) := by
  unfold ChildOf; infer_instance

/-- Heap order on all edges whose parent index is at least `k`. -/
def HeapBelow (le : α → α → Prop) (v : List (α × Nat)) (k : Nat) : Prop :=
  ∀ c, c < v.length → 0 < c → k ≤ (c - 1) / 2 →
    le (nth v ((c - 1) / 2)).1 (nth v c).1

/-- The heap shape invariant: every slot's value is `le` every existing
child's value. -/
abbrev HeapProp (le : α → α → Prop) (v : List (α × Nat)) : Prop :=
  HeapBelow le v 0

instance (le : α → α → Prop) [DecidableRel le] (v : List (α × Nat)) (k : Nat) :
    Decidable (HeapBelow le v k) := by
  unfold HeapBelow; infer_instance

instance (le : α → α → Prop) [DecidableRel le] (v : List (α × Nat)) :
    Decidable (HeapProp le v) := by
  unfold HeapProp; infer_instance

/-- Heap order everywhere except possibly on the edge into node `j`, plus:
node `j`'s children already satisfy the order against `j`'s parent.  This is
the loop invariant of the bottom-up sift. -/
def UpExc (le : α → α → Prop) (v : List (α × Nat)) (j : Nat) : Prop :=
  (∀ c, c < v.length → 0 < c → c ≠ j →
    le (nth v ((c - 1) / 2)).1 (nth v c).1) ∧
  (∀ c, c < v.length → 0 < c → (c - 1) / 2 = j →
    le (nth v ((j - 1) / 2)).1 (nth v c).1)

/-- The mirror invariant between the two arrays: lengths agree, every mirror
index is in bounds, mirrors point back, and mirrored slots carry the same
value. -/
def Mirrored (l r : List (α × Nat)) : Prop :=
  l.length = r.length ∧
  (∀ i, i < l.length →
    (nth l i).2 < r.length ∧ (nth r (nth l i).2).2 = i ∧
      (nth r (nth l i).2).1 = (nth l i).1) ∧
  (∀ j, j < r.length →
    (nth r j).2 < l.length ∧ (nth l (nth r j).2).2 = j ∧
      (nth l (nth r j).2).1 = (nth r j).1)

instance [DecidableEq α] (l r : List (α × Nat)) : Decidable (Mirrored l r) := by
  unfold Mirrored; infer_instance

/-- The full internal invariant of a `DoubleHeap`: mirror correctness plus
the min-heap and max-heap shape invariants. -/
def Inv [LinearOrder α] (h : DoubleHeap α) : Prop :=
  Mirrored h.min_array h.max_array ∧
  HeapProp (fun a b => a ≤ b) h.min_array ∧
  HeapProp (fun a b => b ≤ a) h.max_array

instance [LinearOrder α] (h : DoubleHeap α) : Decidable (Inv h) := by
  unfold Inv; infer_instance

/-- Both arrays pass the `Heap::is_heap_aux` validity check: the min-array
with the `>` comparator (no parent is greater than a child) and the
max-array with the `<` comparator (no parent is less than a child). -/
def ValidShapes [LinearOrder α] (h : DoubleHeap α) : Prop :=
  Heap.is_heap_aux (h.min_array.map Prod.fst) gtb = true ∧
  Heap.is_heap_aux (h.max_array.map Prod.fst) ltb = true

/-- States reachable from `DoubleHeap::new()` by public operations. -/
inductive Reachable [LinearOrder α] : DoubleHeap α → Prop where
  | new : Reachable DoubleHeap.new
  | ins (h : DoubleHeap α) (x : α) : Reachable h → Reachable (h.ins x)
  | ins_all (h : DoubleHeap α) (v : List α) :
      Reachable h → Reachable (h.ins_all v)
  | make_heap (v : List α) : Reachable (DoubleHeap.make_heap v)
  | del_min (h : DoubleHeap α) : Reachable h → Reachable h.del_min.2
  | del_max (h : DoubleHeap α) : Reachable h → Reachable h.del_max.2

end Invariants

section ListLemmas

variable {β : Type _} [Inhabited β]

theorem nth_eq_getElem (v : List β) (i : Nat) (hi : i < v.length) :
    nth v i = v[i] :=
  List.getD_eq_getElem v default hi

theorem nth_set_self (v : List β) (i : Nat) (hi : i < v.length) (x : β) :
    nth (v.set i x) i = x := by
  rw [nth_eq_getElem _ _ (by simpa using hi)]
  exact List.getElem_set_self (by simpa using hi)

theorem nth_set_ne (v : List β) {i j : Nat} (h : i ≠ j) (x : β) :
    nth (v.set i x) j = nth v j := by
  by_cases hj : j < v.length
  · rw [nth_eq_getElem _ _ (by simpa using hj), nth_eq_getElem _ _ hj]
    exact List.getElem_set_ne h _
  · unfold nth
    rw [List.getD_eq_default _ _ (by simp; omega),
      List.getD_eq_default _ _ (by omega)]

omit [Inhabited β] in
theorem length_set (v : List β) (i : Nat) (x : β) :
    (v.set i x).length = v.length :=
  List.length_set v i x

theorem length_vswap (v : List β) (i j : Nat) :
    (vswap v i j).length = v.length := by
  simp [vswap]

theorem nth_vswap_fst (v : List β) {i j : Nat} (hi : i < v.length)
    (hij : i ≠ j) : nth (vswap v i j) i = nth v j := by
  rw [vswap, nth_set_ne _ (fun h => hij h.symm), nth_set_self _ _ hi]

theorem nth_vswap_snd (v : List β) {i j : Nat} (hj : j < v.length) :
    nth (vswap v i j) j = nth v i := by
  rw [vswap, nth_set_self _ _ (by simpa using hj)]

theorem nth_vswap_other (v : List β) {i j k : Nat} (hki : k ≠ i)
    (hkj : k ≠ j) : nth (vswap v i j) k = nth v k := by
  rw [vswap, nth_set_ne _ (fun h => hkj h.symm), nth_set_ne _ (fun h => hki h.symm)]

omit [Inhabited β] in
theorem length_dropLast (v : List β) : v.dropLast.length = v.length - 1 :=
  List.length_dropLast v

theorem nth_dropLast (v : List β) {i : Nat} (hi : i < v.length - 1) :
    nth v.dropLast i = nth v i := by
  rw [nth_eq_getElem _ _ (by simpa using hi), nth_eq_getElem _ _ (by omega)]
  exact List.getElem_dropLast v i (by simpa using hi)

theorem nth_append_left (v w : List β) {i : Nat} (hi : i < v.length) :
    nth (v ++ w) i = nth v i := by
  rw [nth_eq_getElem _ _ (by simp; omega), nth_eq_getElem _ _ hi]
  exact List.getElem_append_left hi

theorem nth_append_last (v : List β) (x : β) :
    nth (v ++ [x]) v.length = x := by
  rw [nth_eq_getElem _ _ (by simp)]
  simp

theorem nth_ext {a b : List β} (hlen : a.length = b.length)
    (h : ∀ k, k < a.length → nth a k = nth b k) : a = b := by
  apply List.ext_getElem hlen
  intro i h1 h2
  rw [← nth_eq_getElem _ _ h1, ← nth_eq_getElem _ _ h2]
  exact h i h1

theorem perm_cons_set (t : List β) (j : Nat) (x : β) (hj : j < t.length) :
    (nth t j :: t.set j x).Perm (x :: t) := by
  induction t generalizing j with
  | nil => simp at hj
  | cons y t ih =>
    cases j with
    | zero =>
      simp only [nth, List.getD_cons_zero, List.set_cons_zero]
      exact List.Perm.swap x y t
    | succ j =>
      simp only [nth, List.getD_cons_succ, List.set_cons_succ]
      exact ((List.Perm.swap _ _ _).trans
        (List.Perm.cons y (ih j (by simpa using hj)))).trans
        (List.Perm.swap _ _ _)

theorem vswap_perm (v : List β) {i j : Nat} (hi : i < v.length)
    (hj : j < v.length) : (vswap v i j).Perm v := by
  induction v generalizing i j with
  | nil => simp at hi
  | cons y t ih =>
    cases i with
    | zero =>
      cases j with
      | zero => simp [vswap, nth]
      | succ j =>
        simp only [vswap, nth, List.getD_cons_zero, List.getD_cons_succ,
          List.set_cons_zero, List.set_cons_succ]
        exact perm_cons_set t j y (by simpa using hj)
    | succ i =>
      cases j with
      | zero =>
        simp only [vswap, nth, List.getD_cons_zero, List.getD_cons_succ,
          List.set_cons_zero, List.set_cons_succ]
        exact perm_cons_set t i y (by simpa using hi)
      | succ j =>
        simp only [vswap, nth, List.getD_cons_succ, List.set_cons_succ]
        exact List.Perm.cons y
          (ih (by simpa using hi) (by simpa using hj))

end ListLemmas

section SwapLemmas

open DoubleHeap (swap)

variable {α : Type} [Inhabited α]

theorem swap_length_fst (l r : List (α × Nat)) (i j : Nat) :
    (swap l r i j).1.length = l.length := by
  simp [swap, vswap]

theorem swap_length_snd (l r : List (α × Nat)) (i j : Nat) :
    (swap l r i j).2.length = r.length := by
  simp [swap]

theorem nth_fst_set_keep (x : List (α × Nat)) (p m k : Nat) :
    (nth (x.set p ((nth x p).1, m)) k).1 = (nth x k).1 := by
  by_cases hkp : k = p
  · subst hkp
    by_cases hk : k < x.length
    · rw [nth_set_self _ _ hk]
    · unfold nth
      rw [List.getD_eq_default _ _ (by simp; omega),
        List.getD_eq_default _ _ (by omega)]
  · rw [nth_set_ne _ (fun h => hkp h.symm)]

theorem swap_snd_values (l r : List (α × Nat)) (i j k : Nat) :
    (nth (swap l r i j).2 k).1 = (nth r k).1 := by
  simp only [swap]
  rw [nth_fst_set_keep, nth_fst_set_keep]

theorem swap_fst_perm (l r : List (α × Nat)) {i j : Nat} (hi : i < l.length)
    (hj : j < l.length) :
    ((swap l r i j).1.map Prod.fst).Perm (l.map Prod.fst) := by
  simp only [swap]
  exact (vswap_perm l hi hj).map Prod.fst

theorem mirrored_symm {l r : List (α × Nat)} (h : Mirrored l r) :
    Mirrored r l :=
  ⟨h.1.symm, h.2.2, h.2.1⟩

theorem mirrored_nil : Mirrored ([] : List (α × Nat)) [] := by
  refine ⟨rfl, ?_, ?_⟩ <;> intro i hi <;> simp at hi

theorem swap_mirror {l r : List (α × Nat)} {i j : Nat} (hm : Mirrored l r)
    (hi : i < l.length) (hj : j < l.length) (hij : i ≠ j) :
    Mirrored (swap l r i j).1 (swap l r i j).2 := by
  obtain ⟨hlen, hfwd, hbwd⟩ := hm
  obtain ⟨hmi, hrmi2, hrmi1⟩ := hfwd i hi
  obtain ⟨hmj, hrmj2, hrmj1⟩ := hfwd j hj
  have hmimj : (nth l i).2 ≠ (nth l j).2 := by
    intro hcontra
    rw [hcontra] at hrmi2
    exact hij (hrmi2.symm.trans hrmj2)
  -- the two arrays after the swap
  have hr2mi : nth (swap l r i j).2 (nth l i).2 = ((nth r (nth l i).2).1, j) := by
    simp only [swap]
    rw [nth_set_ne _ (fun h => hmimj h.symm), nth_set_self _ _ hmi]
  have hr2mj : nth (swap l r i j).2 (nth l j).2 = ((nth r (nth l j).2).1, i) := by
    simp only [swap]
    rw [nth_set_self _ _ (by simpa using hmj),
      nth_set_ne _ (fun h => hmimj h)]
  have hr2other : ∀ q, q ≠ (nth l i).2 → q ≠ (nth l j).2 →
      nth (swap l r i j).2 q = nth r q := by
    intro q hqmi hqmj
    simp only [swap]
    rw [nth_set_ne _ (fun h => hqmj h.symm), nth_set_ne _ (fun h => hqmi h.symm)]
  have hl1i : nth (swap l r i j).1 i = nth l j := by
    simp only [swap]; exact nth_vswap_fst l hi hij
  have hl1j : nth (swap l r i j).1 j = nth l i := by
    simp only [swap]; exact nth_vswap_snd l hj
  have hl1other : ∀ p, p ≠ i → p ≠ j → nth (swap l r i j).1 p = nth l p := by
    intro p hpi hpj
    simp only [swap]; exact nth_vswap_other l hpi hpj
  refine ⟨by rw [swap_length_fst, swap_length_snd, hlen], ?_, ?_⟩
  · -- forward direction
    intro p hp
    rw [swap_length_fst] at hp
    by_cases hpi : p = i
    · subst hpi
      rw [hl1i, hr2mj, swap_length_snd, hrmj1]
      exact ⟨hmj, rfl, rfl⟩
    · by_cases hpj : p = j
      · subst hpj
        rw [hl1j, hr2mi, swap_length_snd, hrmi1]
        exact ⟨hmi, rfl, rfl⟩
      · obtain ⟨hmp, hrmp2, hrmp1⟩ := hfwd p hp
        have hp1 : (nth l p).2 ≠ (nth l i).2 := by
          intro hcon; rw [hcon] at hrmp2; exact hpi (hrmp2.symm.trans hrmi2)
        have hp2 : (nth l p).2 ≠ (nth l j).2 := by
          intro hcon; rw [hcon] at hrmp2; exact hpj (hrmp2.symm.trans hrmj2)
        rw [hl1other p hpi hpj, hr2other _ hp1 hp2, swap_length_snd]
        exact ⟨hmp, hrmp2, hrmp1⟩
  · -- backward direction
    intro q hq
    rw [swap_length_snd] at hq
    by_cases hqmi : q = (nth l i).2
    · subst hqmi
      rw [hr2mi, hl1j, swap_length_fst]
      exact ⟨hj, hrmi2 ▸ rfl, hrmi1 ▸ rfl⟩
    · by_cases hqmj : q = (nth l j).2
      · subst hqmj
        rw [hr2mj, hl1i, swap_length_fst]
        exact ⟨hi, hrmj2 ▸ rfl, hrmj1 ▸ rfl⟩
      · obtain ⟨hrq, hlrq2, hlrq1⟩ := hbwd q hq
        have hq1 : (nth r q).2 ≠ i := by
          intro hcon; rw [hcon] at hlrq2; rw [← hlrq2] at hqmi; exact hqmi rfl
        have hq2 : (nth r q).2 ≠ j := by
          intro hcon; rw [hcon] at hlrq2; rw [← hlrq2] at hqmj; exact hqmj rfl
        rw [hr2other q hqmi hqmj, hl1other _ hq1 hq2, swap_length_fst]
        exact ⟨hrq, hlrq2, hlrq1⟩

end SwapLemmas

section BottomUpLemmas

open DoubleHeap (swap fix_bu_go fix_heap_property_bottom_up_aux)

variable {α : Type} [Inhabited α]

theorem fix_bu_go_length (fuel : Nat) (l r : List (α × Nat)) (i : Nat)
    (cmp : α → α → Bool) :
    (fix_bu_go fuel l r i cmp).1.length = l.length ∧
    (fix_bu_go fuel l r i cmp).2.length = r.length := by
  induction fuel generalizing l r i with
  | zero => exact ⟨rfl, rfl⟩
  | succ fuel ih =>
    simp only [fix_bu_go]
    split
    · exact ⟨rfl, rfl⟩
    · split
      · obtain ⟨h1, h2⟩ := ih (swap l r i ((i - 1) / 2)).1
          (swap l r i ((i - 1) / 2)).2 ((i - 1) / 2)
        exact ⟨h1.trans (swap_length_fst _ _ _ _),
          h2.trans (swap_length_snd _ _ _ _)⟩
      · exact ⟨rfl, rfl⟩

theorem fix_bu_go_congr {fuel fuel' : Nat} (l r : List (α × Nat)) (i : Nat)
    (cmp : α → α → Bool) (h : i < fuel) (h' : i < fuel') :
    fix_bu_go fuel l r i cmp = fix_bu_go fuel' l r i cmp := by
  induction fuel generalizing fuel' l r i with
  | zero => omega
  | succ fuel ih =>
    cases fuel' with
    | zero => omega
    | succ fuel' =>
      simp only [fix_bu_go]
      split
      · rfl
      · split
        · rename_i h0 _
          exact ih _ _ _ (by omega) (by omega)
        · rfl

theorem fix_bu_go_mirror (fuel : Nat) {l r : List (α × Nat)} {i : Nat}
    (cmp : α → α → Bool) (hm : Mirrored l r) (hi : i < l.length) :
    Mirrored (fix_bu_go fuel l r i cmp).1 (fix_bu_go fuel l r i cmp).2 := by
  induction fuel generalizing l r i with
  | zero => exact hm
  | succ fuel ih =>
    simp only [fix_bu_go]
    split
    · exact hm
    · split
      · rename_i h0 _
        apply ih
        · exact swap_mirror hm hi (by omega) (by omega)
        · rw [swap_length_fst]; omega
      · exact hm

theorem fix_bu_go_snd_values (fuel : Nat) (l r : List (α × Nat)) (i : Nat)
    (cmp : α → α → Bool) (k : Nat) :
    (nth (fix_bu_go fuel l r i cmp).2 k).1 = (nth r k).1 := by
  induction fuel generalizing l r i with
  | zero => rfl
  | succ fuel ih =>
    simp only [fix_bu_go]
    split
    · rfl
    · split
      · exact (ih _ _ _).trans (swap_snd_values _ _ _ _ _)
      · rfl

theorem fix_bu_go_fst_perm (fuel : Nat) {l : List (α × Nat)}
    (r : List (α × Nat)) {i : Nat} (cmp : α → α → Bool) (hi : i < l.length) :
    ((fix_bu_go fuel l r i cmp).1.map Prod.fst).Perm (l.map Prod.fst) := by
  induction fuel generalizing l r i with
  | zero => exact List.Perm.refl _
  | succ fuel ih =>
    simp only [fix_bu_go]
    split
    · exact List.Perm.refl _
    · split
      · rename_i h0 _
        exact (ih _ (by rw [swap_length_fst]; omega)).trans
          (swap_fst_perm l r hi (by omega))
      · exact List.Perm.refl _

theorem fix_bu_go_heap (le : α → α → Prop) (cmp : α → α → Bool)
    (hcmp : ∀ a b, cmp a b = false ↔ le b a)
    (htot : ∀ a b, ¬ le a b → le b a)
    (htrans : ∀ a b c, le a b → le b c → le a c)
    (fuel : Nat) {l : List (α × Nat)} (r : List (α × Nat)) {i : Nat}
    (hfuel : i < fuel) (hi : i < l.length) (hexc : UpExc le l i) :
    HeapProp le (fix_bu_go fuel l r i cmp).1 := by
  induction fuel generalizing l r i with
  | zero => omega
  | succ fuel ih =>
    simp only [fix_bu_go]
    split
    · rename_i h0
      subst h0
      intro c hc hc0 _
      exact hexc.1 c hc hc0 (by omega)
    · rename_i h0
      split
      · rename_i hct
        -- the sift swaps `i` with its parent and continues from the parent
        have hlip : le (nth l i).1 (nth l ((i - 1) / 2)).1 := by
          apply htot
          intro hle
          rw [(hcmp _ _).mpr hle] at hct
          exact Bool.false_ne_true hct
        have hpa_lt : (i - 1) / 2 < i := by omega
        have hswi : nth (swap l r i ((i - 1) / 2)).1 i = nth l ((i - 1) / 2) := by
          simp only [swap]
          exact nth_vswap_fst l hi (by omega)
        have hswpa : nth (swap l r i ((i - 1) / 2)).1 ((i - 1) / 2) = nth l i := by
          simp only [swap]
          exact nth_vswap_snd l (by omega)
        have hswo : ∀ p, p ≠ i → p ≠ (i - 1) / 2 →
            nth (swap l r i ((i - 1) / 2)).1 p = nth l p := by
          intro p h1 h2
          simp only [swap]
          exact nth_vswap_other l h1 h2
        apply ih _ (by omega) (by rw [swap_length_fst]; omega)
        constructor
        · -- heap order away from the edge into the parent
          intro c hc hc0 hcpa
          rw [swap_length_fst] at hc
          by_cases hci : c = i
          · subst hci
            rw [hswpa, hswi]
            exact hlip
          · by_cases hpc : (c - 1) / 2 = i
            · rw [hpc, hswi, hswo c hci (by omega)]
              exact hexc.2 c hc hc0 hpc
            · by_cases hgc : (c - 1) / 2 = (i - 1) / 2
              · rw [hgc, hswpa, hswo c hci (by omega)]
                exact htrans _ _ _ hlip (by
                  have := hexc.1 c hc hc0 hci
                  rwa [hgc] at this)
              · rw [hswo _ hpc hgc, hswo c hci (by omega)]
                exact hexc.1 c hc hc0 hci
        · -- the parent's children against the grandparent
          intro c hc hc0 hcp
          rw [swap_length_fst] at hc
          by_cases hpa0 : (i - 1) / 2 = 0
          · have hidx : ((i - 1) / 2 - 1) / 2 = (i - 1) / 2 := by omega
            rw [hidx, hswpa]
            by_cases hci : c = i
            · subst hci
              rw [hswi]
              exact hlip
            · rw [hswo c hci (by omega)]
              refine htrans _ _ _ hlip ?_
              have := hexc.1 c hc hc0 hci
              rwa [hcp] at this
          · have hgp_ne_i : ((i - 1) / 2 - 1) / 2 ≠ i := by omega
            have hgp_ne_pa : ((i - 1) / 2 - 1) / 2 ≠ (i - 1) / 2 := by omega
            rw [hswo _ hgp_ne_i hgp_ne_pa]
            have hgppa : le (nth l (((i - 1) / 2 - 1) / 2)).1
                (nth l ((i - 1) / 2)).1 :=
              hexc.1 ((i - 1) / 2) (by omega) (by omega) (by omega)
            by_cases hci : c = i
            · subst hci
              rw [hswi]
              exact hgppa
            · rw [hswo c hci (by omega)]
              refine htrans _ _ _ hgppa ?_
              have := hexc.1 c hc hc0 hci
              rwa [hcp] at this
      · rename_i hcf
        have hpi : le (nth l ((i - 1) / 2)).1 (nth l i).1 :=
          (hcmp _ _).mp (by simpa using hcf)
        intro c hc hc0 _
        by_cases hci : c = i
        · subst hci
          exact hpi
        · exact hexc.1 c hc hc0 hci

end BottomUpLemmas

section TopDownLemmas

open DoubleHeap (swap fix_td_go fix_heap_property_top_down_aux)

variable {α : Type} [Inhabited α]

theorem fix_td_go_length (fuel : Nat) (l r : List (α × Nat)) (i : Nat)
    (lt gt : α → α → Bool) :
    (fix_td_go fuel l r i lt gt).1.length = l.length ∧
    (fix_td_go fuel l r i lt gt).2.length = r.length := by
  induction fuel generalizing l r i with
  | zero => exact ⟨rfl, rfl⟩
  | succ fuel ih =>
    simp only [fix_td_go]
    by_cases hg2 : l.length > 2 * i + 2
    · rw [if_pos hg2]
      cases hsel : lt (nth l (2 * i + 1)).1 (nth l (2 * i + 2)).1
      · rw [if_neg Bool.false_ne_true]
        split
        · obtain ⟨h1, h2⟩ := ih (swap l r i (2 * i + 2)).1
            (swap l r i (2 * i + 2)).2 (2 * i + 2)
          exact ⟨h1.trans (swap_length_fst _ _ _ _),
            h2.trans (swap_length_snd _ _ _ _)⟩
        · exact ⟨rfl, rfl⟩
      · rw [if_pos rfl]
        split
        · obtain ⟨h1, h2⟩ := ih (swap l r i (2 * i + 1)).1
            (swap l r i (2 * i + 1)).2 (2 * i + 1)
          exact ⟨h1.trans (swap_length_fst _ _ _ _),
            h2.trans (swap_length_snd _ _ _ _)⟩
        · exact ⟨rfl, rfl⟩
    · rw [if_neg hg2]
      by_cases hg1 : l.length > 2 * i + 1
      · rw [if_pos hg1]
        split
        · obtain ⟨h1, h2⟩ := ih (swap l r i (2 * i + 1)).1
            (swap l r i (2 * i + 1)).2 (2 * i + 1)
          exact ⟨h1.trans (swap_length_fst _ _ _ _),
            h2.trans (swap_length_snd _ _ _ _)⟩
        · exact ⟨rfl, rfl⟩
      · rw [if_neg hg1]
        exact ⟨rfl, rfl⟩

theorem fix_td_go_congr {fuel fuel' : Nat} (l r : List (α × Nat)) (i : Nat)
    (lt gt : α → α → Bool) (h : l.length - i < fuel)
    (h' : l.length - i < fuel') :
    fix_td_go fuel l r i lt gt = fix_td_go fuel' l r i lt gt := by
  induction fuel generalizing fuel' l r i with
  | zero => omega
  | succ fuel ih =>
    cases fuel' with
    | zero => omega
    | succ fuel' =>
      simp only [fix_td_go]
      by_cases hg2 : l.length > 2 * i + 2
      · simp only [if_pos hg2]
        cases hsel : lt (nth l (2 * i + 1)).1 (nth l (2 * i + 2)).1
        · rw [if_neg Bool.false_ne_true]
          by_cases hgt_c : gt (nth l i).1 (nth l (2 * i + 2)).1 = true
          · simp only [if_pos hgt_c]
            exact ih _ _ _
              (by rw [swap_length_fst]; omega) (by rw [swap_length_fst]; omega)
          · simp only [if_neg hgt_c]
        · rw [if_pos rfl]
          by_cases hgt_c : gt (nth l i).1 (nth l (2 * i + 1)).1 = true
          · simp only [if_pos hgt_c]
            exact ih _ _ _
              (by rw [swap_length_fst]; omega) (by rw [swap_length_fst]; omega)
          · simp only [if_neg hgt_c]
      · simp only [if_neg hg2]
        by_cases hg1 : l.length > 2 * i + 1
        · simp only [if_pos hg1]
          by_cases hgt_c : gt (nth l i).1 (nth l (2 * i + 1)).1 = true
          · simp only [if_pos hgt_c]
            exact ih _ _ _
              (by rw [swap_length_fst]; omega) (by rw [swap_length_fst]; omega)
          · simp only [if_neg hgt_c]
        · simp only [if_neg hg1]

theorem fix_td_go_mirror (fuel : Nat) {l r : List (α × Nat)} (i : Nat)
    (lt gt : α → α → Bool) (hm : Mirrored l r) :
    Mirrored (fix_td_go fuel l r i lt gt).1 (fix_td_go fuel l r i lt gt).2 := by
  induction fuel generalizing l r i with
  | zero => exact hm
  | succ fuel ih =>
    simp only [fix_td_go]
    by_cases hg2 : l.length > 2 * i + 2
    · rw [if_pos hg2]
      cases hsel : lt (nth l (2 * i + 1)).1 (nth l (2 * i + 2)).1
      · rw [if_neg Bool.false_ne_true]
        split
        · exact ih _ (swap_mirror hm (by omega) (by omega) (by omega))
        · exact hm
      · rw [if_pos rfl]
        split
        · exact ih _ (swap_mirror hm (by omega) (by omega) (by omega))
        · exact hm
    · rw [if_neg hg2]
      by_cases hg1 : l.length > 2 * i + 1
      · rw [if_pos hg1]
        split
        · exact ih _ (swap_mirror hm (by omega) (by omega) (by omega))
        · exact hm
      · rw [if_neg hg1]
        exact hm

theorem fix_td_go_snd_values (fuel : Nat) (l r : List (α × Nat)) (i : Nat)
    (lt gt : α → α → Bool) (k : Nat) :
    (nth (fix_td_go fuel l r i lt gt).2 k).1 = (nth r k).1 := by
  induction fuel generalizing l r i with
  | zero => rfl
  | succ fuel ih =>
    simp only [fix_td_go]
    by_cases hg2 : l.length > 2 * i + 2
    · rw [if_pos hg2]
      cases hsel : lt (nth l (2 * i + 1)).1 (nth l (2 * i + 2)).1
      · rw [if_neg Bool.false_ne_true]
        split
        · exact (ih _ _ _).trans (swap_snd_values _ _ _ _ _)
        · rfl
      · rw [if_pos rfl]
        split
        · exact (ih _ _ _).trans (swap_snd_values _ _ _ _ _)
        · rfl
    · rw [if_neg hg2]
      by_cases hg1 : l.length > 2 * i + 1
      · rw [if_pos hg1]
        split
        · exact (ih _ _ _).trans (swap_snd_values _ _ _ _ _)
        · rfl
      · rw [if_neg hg1]

theorem fix_td_go_fst_perm (fuel : Nat) (l r : List (α × Nat)) (i : Nat)
    (lt gt : α → α → Bool) :
    ((fix_td_go fuel l r i lt gt).1.map Prod.fst).Perm (l.map Prod.fst) := by
  induction fuel generalizing l r i with
  | zero => exact List.Perm.refl _
  | succ fuel ih =>
    simp only [fix_td_go]
    by_cases hg2 : l.length > 2 * i + 2
    · rw [if_pos hg2]
      cases hsel : lt (nth l (2 * i + 1)).1 (nth l (2 * i + 2)).1
      · rw [if_neg Bool.false_ne_true]
        split
        · exact (ih _ _ _).trans (swap_fst_perm l r (by omega) (by omega))
        · exact List.Perm.refl _
      · rw [if_pos rfl]
        split
        · exact (ih _ _ _).trans (swap_fst_perm l r (by omega) (by omega))
        · exact List.Perm.refl _
    · rw [if_neg hg2]
      by_cases hg1 : l.length > 2 * i + 1
      · rw [if_pos hg1]
        split
        · exact (ih _ _ _).trans (swap_fst_perm l r (by omega) (by omega))
        · exact List.Perm.refl _
      · rw [if_neg hg1]

/-- One top-down sift step re-establishes the loop invariant at the child the
node was swapped with. -/
theorem td_exc_step (le : α → α → Prop)
    {l : List (α × Nat)} (r : List (α × Nat)) {k i ch : Nat}
    (hki : k ≤ i) (hchpar : (ch - 1) / 2 = i) (hich : i < ch)
    (hch : ch < l.length)
    (hchle : ∀ c, c < l.length → 0 < c → (c - 1) / 2 = i →
      le (nth l ch).1 (nth l c).1)
    (hchi : le (nth l ch).1 (nth l i).1)
    (H1 : ∀ c, c < l.length → 0 < c → k ≤ (c - 1) / 2 → (c - 1) / 2 ≠ i →
      le (nth l ((c - 1) / 2)).1 (nth l c).1)
    (H2 : 0 < i → k ≤ (i - 1) / 2 → ∀ c, c < l.length → 0 < c →
      (c - 1) / 2 = i → le (nth l ((i - 1) / 2)).1 (nth l c).1) :
    (∀ c, c < (swap l r i ch).1.length → 0 < c → k ≤ (c - 1) / 2 →
      (c - 1) / 2 ≠ ch →
      le (nth (swap l r i ch).1 ((c - 1) / 2)).1 (nth (swap l r i ch).1 c).1) ∧
    (0 < ch → k ≤ (ch - 1) / 2 → ∀ c, c < (swap l r i ch).1.length → 0 < c →
      (c - 1) / 2 = ch →
      le (nth (swap l r i ch).1 ((ch - 1) / 2)).1 (nth (swap l r i ch).1 c).1) := by
  have hswi : nth (swap l r i ch).1 i = nth l ch := by
    simp only [swap]
    exact nth_vswap_fst l (by omega) (by omega)
  have hswch : nth (swap l r i ch).1 ch = nth l i := by
    simp only [swap]
    exact nth_vswap_snd l hch
  have hswo : ∀ p, p ≠ i → p ≠ ch → nth (swap l r i ch).1 p = nth l p := by
    intro p h1 h2
    simp only [swap]
    exact nth_vswap_other l h1 h2
  constructor
  · intro c hc hc0 hk hcch
    rw [swap_length_fst] at hc
    by_cases hci : c = i
    · subst hci
      rw [hswi, hswo ((c - 1) / 2) (by omega) (by omega)]
      exact H2 hc0 hk ch hch (by omega) hchpar
    · by_cases hpc : (c - 1) / 2 = i
      · rw [hpc, hswi]
        by_cases hcch2 : c = ch
        · subst hcch2
          rw [hswch]
          exact hchi
        · rw [hswo c hci hcch2]
          exact hchle c hc hc0 hpc
      · have hcch2 : c ≠ ch := by
          intro hcon
          rw [hcon] at hpc
          exact hpc hchpar
        rw [hswo c hci hcch2, hswo _ hpc (by omega)]
        exact H1 c hc hc0 hk hpc
  · intro hch0 hkch c hc hc0 hcp
    rw [swap_length_fst] at hc
    rw [hchpar, hswi]
    have hcch2 : c ≠ ch := by omega
    have hci : c ≠ i := by omega
    rw [hswo c hci hcch2]
    have hres := H1 c hc hc0 (by omega) (by omega)
    rwa [hcp] at hres

theorem fix_td_go_heap (le : α → α → Prop) (lt gt : α → α → Bool)
    (hlt : ∀ a b, lt a b = false ↔ le b a)
    (hgt : ∀ a b, gt a b = lt b a)
    (htot : ∀ a b, ¬ le a b → le b a)
    (htrans : ∀ a b c, le a b → le b c → le a c)
    (hrefl : ∀ a, le a a)
    (fuel : Nat) {l : List (α × Nat)} (r : List (α × Nat)) {k i : Nat}
    (hfuel : l.length - i < fuel) (hki : k ≤ i)
    (H1 : ∀ c, c < l.length → 0 < c → k ≤ (c - 1) / 2 → (c - 1) / 2 ≠ i →
      le (nth l ((c - 1) / 2)).1 (nth l c).1)
    (H2 : 0 < i → k ≤ (i - 1) / 2 → ∀ c, c < l.length → 0 < c →
      (c - 1) / 2 = i → le (nth l ((i - 1) / 2)).1 (nth l c).1) :
    HeapBelow le (fix_td_go fuel l r i lt gt).1 k := by
  induction fuel generalizing l r i with
  | zero => omega
  | succ fuel ih =>
    simp only [fix_td_go]
    by_cases hg2 : l.length > 2 * i + 2
    · rw [if_pos hg2]
      cases hsel : lt (nth l (2 * i + 1)).1 (nth l (2 * i + 2)).1
      · -- right child selected
        rw [if_neg Bool.false_ne_true]
        have hRL : le (nth l (2 * i + 2)).1 (nth l (2 * i + 1)).1 :=
          (hlt _ _).mp hsel
        have hchle : ∀ c, c < l.length → 0 < c → (c - 1) / 2 = i →
            le (nth l (2 * i + 2)).1 (nth l c).1 := by
          intro c _ hc0 hcpar
          have hcases : c = 2 * i + 1 ∨ c = 2 * i + 2 := by omega
          rcases hcases with h | h <;> subst h
          · exact hRL
          · exact hrefl _
        by_cases hgt_c : gt (nth l i).1 (nth l (2 * i + 2)).1 = true
        · rw [if_pos hgt_c]
          have hchi : le (nth l (2 * i + 2)).1 (nth l i).1 := by
            apply htot
            intro hcon
            rw [hgt _ _, (hlt _ _).mpr hcon] at hgt_c
            exact Bool.false_ne_true hgt_c
          obtain ⟨G1, G2⟩ := @td_exc_step α _ le l r k i (2 * i + 2) hki
            (by omega) (by omega) (by omega) hchle hchi H1 H2
          apply ih
          · rw [swap_length_fst]; omega
          · omega
          · exact G1
          · exact G2
        · rw [if_neg hgt_c]
          have hile : le (nth l i).1 (nth l (2 * i + 2)).1 := by
            rw [hgt _ _] at hgt_c
            exact (hlt _ _).mp (by simpa using hgt_c)
          intro c hc hc0 hk
          have hc2 : c < l.length := hc
          by_cases hpc : (c - 1) / 2 = i
          · rw [hpc]
            have hcases : c = 2 * i + 1 ∨ c = 2 * i + 2 := by omega
            rcases hcases with h | h <;> subst h
            · exact htrans _ _ _ hile hRL
            · exact hile
          · exact H1 c hc2 hc0 hk hpc
      · -- left child selected
        rw [if_pos rfl]
        have hLR : le (nth l (2 * i + 1)).1 (nth l (2 * i + 2)).1 := by
          apply htot
          intro hcon
          rw [(hlt _ _).mpr hcon] at hsel
          exact Bool.false_ne_true hsel
        have hchle : ∀ c, c < l.length → 0 < c → (c - 1) / 2 = i →
            le (nth l (2 * i + 1)).1 (nth l c).1 := by
          intro c _ hc0 hcpar
          have hcases : c = 2 * i + 1 ∨ c = 2 * i + 2 := by omega
          rcases hcases with h | h <;> subst h
          · exact hrefl _
          · exact hLR
        by_cases hgt_c : gt (nth l i).1 (nth l (2 * i + 1)).1 = true
        · rw [if_pos hgt_c]
          have hchi : le (nth l (2 * i + 1)).1 (nth l i).1 := by
            apply htot
            intro hcon
            rw [hgt _ _, (hlt _ _).mpr hcon] at hgt_c
            exact Bool.false_ne_true hgt_c
          obtain ⟨G1, G2⟩ := @td_exc_step α _ le l r k i (2 * i + 1) hki
            (by omega) (by omega) (by omega) hchle hchi H1 H2
          apply ih
          · rw [swap_length_fst]; omega
          · omega
          · exact G1
          · exact G2
        · rw [if_neg hgt_c]
          have hile : le (nth l i).1 (nth l (2 * i + 1)).1 := by
            rw [hgt _ _] at hgt_c
            exact (hlt _ _).mp (by simpa using hgt_c)
          intro c hc hc0 hk
          have hc2 : c < l.length := hc
          by_cases hpc : (c - 1) / 2 = i
          · rw [hpc]
            have hcases : c = 2 * i + 1 ∨ c = 2 * i + 2 := by omega
            rcases hcases with h | h <;> subst h
            · exact hile
            · exact htrans _ _ _ hile hLR
          · exact H1 c hc2 hc0 hk hpc
    · rw [if_neg hg2]
      by_cases hg1 : l.length > 2 * i + 1
      · rw [if_pos hg1]
        have hchle : ∀ c, c < l.length → 0 < c → (c - 1) / 2 = i →
            le (nth l (2 * i + 1)).1 (nth l c).1 := by
          intro c hc hc0 hcpar
          have hcl : c = 2 * i + 1 := by omega
          subst hcl
          exact hrefl _
        by_cases hgt_c : gt (nth l i).1 (nth l (2 * i + 1)).1 = true
        · rw [if_pos hgt_c]
          have hchi : le (nth l (2 * i + 1)).1 (nth l i).1 := by
            apply htot
            intro hcon
            rw [hgt _ _, (hlt _ _).mpr hcon] at hgt_c
            exact Bool.false_ne_true hgt_c
          obtain ⟨G1, G2⟩ := @td_exc_step α _ le l r k i (2 * i + 1) hki
            (by omega) (by omega) (by omega) hchle hchi H1 H2
          apply ih
          · rw [swap_length_fst]; omega
          · omega
          · exact G1
          · exact G2
        · rw [if_neg hgt_c]
          have hile : le (nth l i).1 (nth l (2 * i + 1)).1 := by
            rw [hgt _ _] at hgt_c
            exact (hlt _ _).mp (by simpa using hgt_c)
          intro c hc hc0 hk
          have hc2 : c < l.length := hc
          by_cases hpc : (c - 1) / 2 = i
          · rw [hpc]
            have hcl : c = 2 * i + 1 := by omega
            subst hcl
            exact hile
          · exact H1 c hc2 hc0 hk hpc
      · rw [if_neg hg1]
        intro c hc hc0 hk
        have hc2 : c < l.length := hc
        by_cases hpc : (c - 1) / 2 = i
        · omega
        · exact H1 c hc2 hc0 hk hpc

end TopDownLemmas

section HeapHelpers

variable {α : Type} [Inhabited α]

/-- In a heap, the root is extremal: it is `le` every element. -/
theorem root_le_all (le : α → α → Prop)
    (htrans : ∀ a b c, le a b → le b c → le a c) (hrefl : ∀ a, le a a)
    {v : List (α × Nat)} (hv : HeapProp le v) :
    ∀ p, p < v.length → le (nth v 0).1 (nth v p).1 := by
  intro p
  induction p using Nat.strong_induction_on with
  | _ p ih =>
    intro hp
    rcases Nat.eq_zero_or_pos p with h0 | h0
    · subst h0
      exact hrefl _
    · exact htrans _ _ _ (ih ((p - 1) / 2) (by omega) (by omega))
        (hv p hp h0 (by omega))

/-- `HeapBelow` only depends on the value components and the length. -/
theorem heapBelow_of_values (le : α → α → Prop) {a b : List (α × Nat)}
    (k : Nat) (hlen : b.length = a.length)
    (hv : ∀ j, (nth b j).1 = (nth a j).1) (h : HeapBelow le a k) :
    HeapBelow le b k := by
  intro c hc hc0 hk
  rw [hv, hv]
  exact h c (by omega) hc0 hk

theorem map_fst_eq_of_nth {a b : List (α × Nat)} (hlen : b.length = a.length)
    (hv : ∀ j, (nth b j).1 = (nth a j).1) :
    b.map Prod.fst = a.map Prod.fst := by
  apply List.ext_getElem (by simpa using hlen)
  intro j h1 h2
  have hjb : j < b.length := by simpa using h1
  have hja : j < a.length := by simpa using h2
  simp only [List.getElem_map]
  rw [← nth_eq_getElem b j hjb, ← nth_eq_getElem a j hja]
  exact hv j

/-- Removing the last slot and re-adjoining its value is a permutation. -/
theorem cons_last_perm (u : List (α × Nat)) (h : 0 < u.length) :
    ((nth u (u.length - 1)).1 :: u.dropLast.map Prod.fst).Perm
      (u.map Prod.fst) := by
  have hne : u ≠ [] := by
    intro hcon
    subst hcon
    simp at h
  have hsplit : u.dropLast ++ [u.getLast hne] = u :=
    List.dropLast_append_getLast hne
  have hlastv : u.getLast hne = nth u (u.length - 1) := by
    rw [List.getLast_eq_getElem, nth_eq_getElem u _ (by omega)]
  have hmap : u.map Prod.fst =
      u.dropLast.map Prod.fst ++ [(nth u (u.length - 1)).1] := by
    conv_lhs => rw [← hsplit]
    simp [hlastv]
  rw [hmap]
  exact (List.perm_append_singleton _ _).symm

end HeapHelpers

section Wrappers

open DoubleHeap (swap fix_bu_go fix_td_go fix_heap_property_bottom_up_aux
  fix_heap_property_top_down_aux)

variable {α : Type} [Inhabited α]

theorem fbu_length (l r : List (α × Nat)) (i : Nat) (cmp : α → α → Bool) :
    (fix_heap_property_bottom_up_aux l r i cmp).1.length = l.length ∧
    (fix_heap_property_bottom_up_aux l r i cmp).2.length = r.length :=
  fix_bu_go_length _ l r i cmp

theorem fbu_mirror {l r : List (α × Nat)} {i : Nat} (cmp : α → α → Bool)
    (hm : Mirrored l r) (hi : i < l.length) :
    Mirrored (fix_heap_property_bottom_up_aux l r i cmp).1
      (fix_heap_property_bottom_up_aux l r i cmp).2 :=
  fix_bu_go_mirror _ cmp hm hi

theorem fbu_snd_values (l r : List (α × Nat)) (i : Nat) (cmp : α → α → Bool)
    (k : Nat) :
    (nth (fix_heap_property_bottom_up_aux l r i cmp).2 k).1 = (nth r k).1 :=
  fix_bu_go_snd_values _ l r i cmp k

theorem fbu_fst_perm {l : List (α × Nat)} (r : List (α × Nat)) {i : Nat}
    (cmp : α → α → Bool) (hi : i < l.length) :
    ((fix_heap_property_bottom_up_aux l r i cmp).1.map Prod.fst).Perm
      (l.map Prod.fst) :=
  fix_bu_go_fst_perm _ r cmp hi

theorem fbu_heap (le : α → α → Prop) (cmp : α → α → Bool)
    (hcmp : ∀ a b, cmp a b = false ↔ le b a)
    (htot : ∀ a b, ¬ le a b → le b a)
    (htrans : ∀ a b c, le a b → le b c → le a c)
    {l : List (α × Nat)} (r : List (α × Nat)) {i : Nat}
    (hi : i < l.length) (hexc : UpExc le l i) :
    HeapProp le (fix_heap_property_bottom_up_aux l r i cmp).1 :=
  fix_bu_go_heap le cmp hcmp htot htrans _ r (by omega) hi hexc

theorem ftd_length (l r : List (α × Nat)) (i : Nat) (lt gt : α → α → Bool) :
    (fix_heap_property_top_down_aux l r i lt gt).1.length = l.length ∧
    (fix_heap_property_top_down_aux l r i lt gt).2.length = r.length :=
  fix_td_go_length _ l r i lt gt

theorem ftd_mirror {l r : List (α × Nat)} (i : Nat) (lt gt : α → α → Bool)
    (hm : Mirrored l r) :
    Mirrored (fix_heap_property_top_down_aux l r i lt gt).1
      (fix_heap_property_top_down_aux l r i lt gt).2 :=
  fix_td_go_mirror _ i lt gt hm

theorem ftd_snd_values (l r : List (α × Nat)) (i : Nat) (lt gt : α → α → Bool)
    (k : Nat) :
    (nth (fix_heap_property_top_down_aux l r i lt gt).2 k).1 = (nth r k).1 :=
  fix_td_go_snd_values _ l r i lt gt k

theorem ftd_fst_perm (l r : List (α × Nat)) (i : Nat) (lt gt : α → α → Bool) :
    ((fix_heap_property_top_down_aux l r i lt gt).1.map Prod.fst).Perm
      (l.map Prod.fst) :=
  fix_td_go_fst_perm _ l r i lt gt

theorem ftd_heap (le : α → α → Prop) (lt gt : α → α → Bool)
    (hlt : ∀ a b, lt a b = false ↔ le b a)
    (hgt : ∀ a b, gt a b = lt b a)
    (htot : ∀ a b, ¬ le a b → le b a)
    (htrans : ∀ a b c, le a b → le b c → le a c)
    (hrefl : ∀ a, le a a)
    {l : List (α × Nat)} (r : List (α × Nat)) {k i : Nat} (hki : k ≤ i)
    (H1 : ∀ c, c < l.length → 0 < c → k ≤ (c - 1) / 2 → (c - 1) / 2 ≠ i →
      le (nth l ((c - 1) / 2)).1 (nth l c).1)
    (H2 : 0 < i → k ≤ (i - 1) / 2 → ∀ c, c < l.length → 0 < c →
      (c - 1) / 2 = i → le (nth l ((i - 1) / 2)).1 (nth l c).1) :
    HeapBelow le (fix_heap_property_top_down_aux l r i lt gt).1 k :=
  fix_td_go_heap le lt gt hlt hgt htot htrans hrefl _ r (by omega) hki H1 H2

end Wrappers

section Comparators

variable {α : Type} [LinearOrder α]

theorem ltb_false_iff (a b : α) : ltb a b = false ↔ b ≤ a := by
  simp [ltb]

theorem gtb_false_iff (a b : α) : gtb a b = false ↔ a ≤ b := by
  simp [gtb]

theorem gtb_eq_ltb (a b : α) : gtb a b = ltb b a := rfl

theorem ltb_eq_gtb (a b : α) : ltb a b = gtb b a := rfl

theorem le_total_aux (a b : α) : ¬ a ≤ b → b ≤ a := fun h => le_of_not_le h

theorem ge_total_aux (a b : α) :
    ¬ (fun x y : α => y ≤ x) a b → (fun x y : α => y ≤ x) b a :=
  fun h => le_of_not_le h

end Comparators

section DeleteMirror

variable {α : Type} [Inhabited α]

/-- Popping both arrays' last slots keeps the mirror invariant when they
mirror each other. -/
theorem mirrored_dropLast_both {u v : List (α × Nat)} (hm : Mirrored u v)
    (hpos : 0 < u.length)
    (hlast : (nth u (u.length - 1)).2 = u.length - 1) :
    Mirrored u.dropLast v.dropLast := by
  obtain ⟨hlen, hfwd, hbwd⟩ := hm
  have hvlast : (nth v (u.length - 1)).2 = u.length - 1 := by
    have := (hfwd (u.length - 1) (by omega)).2.1
    rwa [hlast] at this
  refine ⟨by rw [length_dropLast, length_dropLast, hlen], ?_, ?_⟩
  · intro i hi
    rw [length_dropLast] at hi
    obtain ⟨hmi, hmi2, hmi1⟩ := hfwd i (by omega)
    have hne : (nth u i).2 ≠ u.length - 1 := by
      intro hcon
      rw [hcon] at hmi2
      rw [hvlast] at hmi2
      omega
    rw [nth_dropLast u hi, length_dropLast,
      nth_dropLast v (by omega)]
    exact ⟨by omega, hmi2, hmi1⟩
  · intro j hj
    rw [length_dropLast] at hj
    obtain ⟨hrj, hrj2, hrj1⟩ := hbwd j (by omega)
    have hne : (nth v j).2 ≠ u.length - 1 := by
      intro hcon
      rw [hcon] at hrj2
      rw [hlast] at hrj2
      omega
    rw [nth_dropLast v (by omega), length_dropLast,
      nth_dropLast u (by omega)]
    exact ⟨by omega, hrj2, hrj1⟩

/-- The mirror invariant after the non-last-slot deletion bookkeeping:
`u` loses its last slot, the slot of `v` at the popped element's mirror `ri`
is replaced by `v`'s former last slot, and the counterpart of that slot in
`u` is re-pointed at `ri`. -/
theorem mirrored_del_swap {u v : List (α × Nat)} (hm : Mirrored u v)
    {n : Nat} (hn : u.length = n) (h2 : 2 ≤ n)
    (hri : (nth u (n - 1)).2 ≠ n - 1) :
    Mirrored
      (u.dropLast.set (nth v (n - 1)).2
        ((nth u.dropLast (nth v (n - 1)).2).1, (nth u (n - 1)).2))
      ((vswap v (nth u (n - 1)).2 (n - 1)).dropLast) := by
  subst hn
  obtain ⟨hlen, hfwd, hbwd⟩ := hm
  obtain ⟨hriv, hriv2, hriv1⟩ := hfwd (u.length - 1) (by omega)
  obtain ⟨htu, htu2, htu1⟩ := hbwd (u.length - 1) (by omega)
  -- abbreviations: last := u.length - 1, ri := (nth u last).2, t := (nth v last).2
  have htne : (nth v (u.length - 1)).2 ≠ u.length - 1 := by
    intro hcon
    rw [hcon] at htu2
    exact hri htu2
  have hrilt : (nth u (u.length - 1)).2 < u.length - 1 := by
    omega
  have htlt : (nth v (u.length - 1)).2 < u.length - 1 := by
    omega
  -- the two final arrays, described slot by slot
  have hLlen : (u.dropLast.set (nth v (u.length - 1)).2
      ((nth u.dropLast (nth v (u.length - 1)).2).1,
        (nth u (u.length - 1)).2)).length = u.length - 1 := by
    rw [length_set, length_dropLast]
  have hRlen : ((vswap v (nth u (u.length - 1)).2
      (u.length - 1)).dropLast).length = u.length - 1 := by
    rw [length_dropLast, length_vswap, hlen]
  have hLt : nth (u.dropLast.set (nth v (u.length - 1)).2
      ((nth u.dropLast (nth v (u.length - 1)).2).1,
        (nth u (u.length - 1)).2)) (nth v (u.length - 1)).2 =
      ((nth u (nth v (u.length - 1)).2).1, (nth u (u.length - 1)).2) := by
    rw [nth_set_self _ _ (by rw [length_dropLast]; omega),
      nth_dropLast u (by omega)]
  have hLo : ∀ p, p ≠ (nth v (u.length - 1)).2 → p < u.length - 1 →
      nth (u.dropLast.set (nth v (u.length - 1)).2
        ((nth u.dropLast (nth v (u.length - 1)).2).1,
          (nth u (u.length - 1)).2)) p = nth u p := by
    intro p hp hplt
    rw [nth_set_ne _ (fun hcon => hp hcon.symm), nth_dropLast u (by omega)]
  have hRri : nth ((vswap v (nth u (u.length - 1)).2
      (u.length - 1)).dropLast) (nth u (u.length - 1)).2 =
      nth v (u.length - 1) := by
    rw [nth_dropLast _ (by rw [length_vswap]; omega),
      nth_vswap_fst v (by omega) hri]
  have hRo : ∀ q, q ≠ (nth u (u.length - 1)).2 → q < u.length - 1 →
      nth ((vswap v (nth u (u.length - 1)).2
        (u.length - 1)).dropLast) q = nth v q := by
    intro q hq hqlt
    rw [nth_dropLast _ (by rw [length_vswap]; omega),
      nth_vswap_other v hq (by omega)]
  refine ⟨by rw [hLlen, hRlen], ?_, ?_⟩
  · intro p hp
    rw [hLlen] at hp
    by_cases hpt : p = (nth v (u.length - 1)).2
    · subst hpt
      rw [hLt, hRri, hRlen]
      exact ⟨by omega, htu2 ▸ rfl, htu1 ▸ rfl⟩
    · rw [hLo p hpt hp]
      obtain ⟨hmp, hmp2, hmp1⟩ := hfwd p (by omega)
      have hne1 : (nth u p).2 ≠ (nth u (u.length - 1)).2 := by
        intro hcon
        rw [hcon, hriv2] at hmp2
        omega
      have hne2 : (nth u p).2 ≠ u.length - 1 := by
        intro hcon
        rw [hcon] at hmp2
        exact hpt hmp2.symm
      rw [hRo _ hne1 (by omega), hRlen]
      exact ⟨by omega, hmp2, hmp1⟩
  · intro q hq
    rw [hRlen] at hq
    by_cases hqri : q = (nth u (u.length - 1)).2
    · subst hqri
      rw [hRri, hLt, hLlen]
      exact ⟨by omega, rfl, htu1⟩
    · rw [hRo q hqri hq]
      obtain ⟨hrq, hrq2, hrq1⟩ := hbwd q (by omega)
      have hne1 : (nth v q).2 ≠ u.length - 1 := by
        intro hcon
        rw [hcon] at hrq2
        exact hqri hrq2.symm
      have hne2 : (nth v q).2 ≠ (nth v (u.length - 1)).2 := by
        intro hcon
        rw [hcon, htu2] at hrq2
        omega
      rw [hLo _ hne2 (by omega), hLlen]
      exact ⟨by omega, hrq2, hrq1⟩

end DeleteMirror

section DelCases

open DoubleHeap (swap del_aux fix_heap_property_bottom_up_aux
  fix_heap_property_top_down_aux)

variable {α : Type} [Inhabited α]

/-- The easy deletion branch: the popped element sat in the last slot of the
mirror array, so both arrays just lose their last slot before the top-down
fix of the left root. -/
theorem del_case_eq (le : α → α → Prop) (cmpl cmpr : α → α → Bool)
    (hcl : ∀ a b, cmpl a b = false ↔ le b a)
    (hcr : ∀ a b, cmpr a b = cmpl b a)
    (htot : ∀ a b, ¬ le a b → le b a)
    (htrans : ∀ a b c, le a b → le b c → le a c)
    (hrefl : ∀ a, le a a)
    {l r p1 p2 : List (α × Nat)}
    (hn : 2 ≤ l.length)
    (hrlen : r.length = l.length)
    (hp1len : p1.length = l.length) (hp2len : p2.length = r.length)
    (hm1 : Mirrored p1 p2)
    (hp1last : nth p1 (l.length - 1) = nth l 0)
    (hp1o : ∀ x, x ≠ 0 → x ≠ l.length - 1 → nth p1 x = nth l x)
    (hp2v : ∀ k, (nth p2 k).1 = (nth r k).1)
    (hp1perm : (p1.map Prod.fst).Perm (l.map Prod.fst))
    (hl : HeapProp le l) (hr : HeapProp (fun a b => le b a) r)
    (hricase : (nth l 0).2 = l.length - 1) :
    Mirrored (fix_heap_property_top_down_aux p1.dropLast p2.dropLast
        0 cmpl cmpr).1
      (fix_heap_property_top_down_aux p1.dropLast p2.dropLast 0 cmpl cmpr).2 ∧
    HeapProp le (fix_heap_property_top_down_aux p1.dropLast p2.dropLast
      0 cmpl cmpr).1 ∧
    HeapProp (fun a b => le b a)
      (fix_heap_property_top_down_aux p1.dropLast p2.dropLast 0 cmpl cmpr).2 ∧
    (fix_heap_property_top_down_aux p1.dropLast p2.dropLast
      0 cmpl cmpr).1.length = l.length - 1 ∧
    (fix_heap_property_top_down_aux p1.dropLast p2.dropLast
      0 cmpl cmpr).2.length = r.length - 1 ∧
    ((nth l 0).1 :: (fix_heap_property_top_down_aux p1.dropLast p2.dropLast
      0 cmpl cmpr).1.map Prod.fst).Perm (l.map Prod.fst) ∧
    ((nth l 0).1 :: (fix_heap_property_top_down_aux p1.dropLast p2.dropLast
      0 cmpl cmpr).2.map Prod.fst).Perm (r.map Prod.fst) := by
  have hmdrop : Mirrored p1.dropLast p2.dropLast := by
    apply mirrored_dropLast_both hm1 (by omega)
    rw [hp1len, hp1last]
    exact hricase
  have hL2len : p1.dropLast.length = l.length - 1 := by
    rw [length_dropLast, hp1len]
  have hR2len : p2.dropLast.length = r.length - 1 := by
    rw [length_dropLast, hp2len]
  have hL2o : ∀ x, 0 < x → x < l.length - 1 → nth p1.dropLast x = nth l x := by
    intro x hx1 hx2
    rw [nth_dropLast p1 (by omega), hp1o x (by omega) (by omega)]
  have hR2v : ∀ x, x < r.length - 1 → (nth p2.dropLast x).1 = (nth r x).1 := by
    intro x hx
    rw [nth_dropLast p2 (by omega)]
    exact hp2v x
  have hQlen := ftd_length p1.dropLast p2.dropLast 0 cmpl cmpr
  refine ⟨ftd_mirror 0 cmpl cmpr hmdrop, ?_, ?_, ?_, ?_, ?_, ?_⟩
  · -- min side: sift the new root down
    apply ftd_heap le cmpl cmpr hcl hcr htot htrans hrefl p2.dropLast
      (Nat.le_refl 0)
    · intro c hc hc0 _ hpc
      rw [hL2len] at hc
      rw [hL2o c hc0 hc, hL2o ((c - 1) / 2) (by omega) (by omega)]
      exact hl c (by omega) hc0 (by omega)
    · intro hcon
      omega
  · -- max side: untouched values, one slot shorter
    have hr2 : HeapBelow (fun a b => le b a) p2.dropLast 0 := by
      intro c hc hc0 _
      rw [hR2len] at hc
      show le (nth p2.dropLast c).1 (nth p2.dropLast ((c - 1) / 2)).1
      rw [hR2v c (by omega), hR2v ((c - 1) / 2) (by omega)]
      exact hr c (by omega) hc0 (by omega)
    exact heapBelow_of_values (fun a b => le b a) 0 hQlen.2
      (fun j => ftd_snd_values _ _ _ _ _ j) hr2
  · exact hQlen.1.trans hL2len
  · exact hQlen.2.trans hR2len
  · -- left values: the root value re-adjoined is a permutation of the old
    have h1 : ((nth l 0).1 :: p1.dropLast.map Prod.fst).Perm
        (p1.map Prod.fst) := by
      have hc := cons_last_perm p1 (by omega)
      rw [hp1len, hp1last] at hc
      exact hc
    exact ((List.Perm.cons _ (ftd_fst_perm _ _ _ _ _)).trans h1).trans hp1perm
  · -- right values likewise
    have hvq : (fix_heap_property_top_down_aux p1.dropLast p2.dropLast
        0 cmpl cmpr).2.map Prod.fst = p2.dropLast.map Prod.fst :=
      map_fst_eq_of_nth (hQlen.2) (fun j => ftd_snd_values _ _ _ _ _ j)
    have hrootval : (nth p2 (l.length - 1)).1 = (nth l 0).1 := by
      have hcomp := (hm1.2.1 (l.length - 1) (by omega)).2.2
      rw [hp1last, hricase] at hcomp
      exact hcomp
    have h2 : ((nth l 0).1 :: p2.dropLast.map Prod.fst).Perm
        (p2.map Prod.fst) := by
      have hc := cons_last_perm p2 (by omega)
      rw [hp2len, hrlen, hrootval] at hc
      exact hc
    have hp2r : p2.map Prod.fst = r.map Prod.fst :=
      map_fst_eq_of_nth hp2len hp2v
    rw [hvq, ← hp2r]
    exact h2

/-- The interesting deletion branch: the popped element's mirror slot `ri`
is not the last slot of the mirror array, so the mirror array's former last
element moves into slot `ri`, and heap order there is restored by a single
bottom-up sift (which suffices: the removed element was extremal, so the
slot's subtree can only be violated upward). -/
theorem del_case_ne (le : α → α → Prop) (cmpl cmpr : α → α → Bool)
    (hcl : ∀ a b, cmpl a b = false ↔ le b a)
    (hcr : ∀ a b, cmpr a b = cmpl b a)
    (htot : ∀ a b, ¬ le a b → le b a)
    (htrans : ∀ a b c, le a b → le b c → le a c)
    (hrefl : ∀ a, le a a)
    {l r p1 p2 : List (α × Nat)}
    (hn : 2 ≤ l.length)
    (hrlen : r.length = l.length)
    (hp1len : p1.length = l.length) (hp2len : p2.length = r.length)
    (hm1 : Mirrored p1 p2)
    (hp1last : nth p1 (l.length - 1) = nth l 0)
    (hp1o : ∀ x, x ≠ 0 → x ≠ l.length - 1 → nth p1 x = nth l x)
    (hp2v : ∀ k, (nth p2 k).1 = (nth r k).1)
    (hp1perm : (p1.map Prod.fst).Perm (l.map Prod.fst))
    (hl : HeapProp le l) (hr : HeapProp (fun a b => le b a) r)
    (hricase : (nth l 0).2 ≠ l.length - 1)
    (hri_lt : (nth l 0).2 < r.length)
    (hriv1 : (nth r (nth l 0).2).1 = (nth l 0).1)
    (hrootr : ∀ q, q < r.length → le (nth l 0).1 (nth r q).1) :
    Mirrored
      (fix_heap_property_bottom_up_aux
        (fix_heap_property_top_down_aux
          (p1.dropLast.set (nth p2 (l.length - 1)).2
            ((nth p1.dropLast (nth p2 (l.length - 1)).2).1, (nth l 0).2))
          ((vswap p2 (nth l 0).2 (l.length - 1)).dropLast) 0 cmpl cmpr).2
        (fix_heap_property_top_down_aux
          (p1.dropLast.set (nth p2 (l.length - 1)).2
            ((nth p1.dropLast (nth p2 (l.length - 1)).2).1, (nth l 0).2))
          ((vswap p2 (nth l 0).2 (l.length - 1)).dropLast) 0 cmpl cmpr).1
        (nth l 0).2 cmpr).2
      (fix_heap_property_bottom_up_aux
        (fix_heap_property_top_down_aux
          (p1.dropLast.set (nth p2 (l.length - 1)).2
            ((nth p1.dropLast (nth p2 (l.length - 1)).2).1, (nth l 0).2))
          ((vswap p2 (nth l 0).2 (l.length - 1)).dropLast) 0 cmpl cmpr).2
        (fix_heap_property_top_down_aux
          (p1.dropLast.set (nth p2 (l.length - 1)).2
            ((nth p1.dropLast (nth p2 (l.length - 1)).2).1, (nth l 0).2))
          ((vswap p2 (nth l 0).2 (l.length - 1)).dropLast) 0 cmpl cmpr).1
        (nth l 0).2 cmpr).1 ∧
    HeapProp le
      (fix_heap_property_bottom_up_aux
        (fix_heap_property_top_down_aux
          (p1.dropLast.set (nth p2 (l.length - 1)).2
            ((nth p1.dropLast (nth p2 (l.length - 1)).2).1, (nth l 0).2))
          ((vswap p2 (nth l 0).2 (l.length - 1)).dropLast) 0 cmpl cmpr).2
        (fix_heap_property_top_down_aux
          (p1.dropLast.set (nth p2 (l.length - 1)).2
            ((nth p1.dropLast (nth p2 (l.length - 1)).2).1, (nth l 0).2))
          ((vswap p2 (nth l 0).2 (l.length - 1)).dropLast) 0 cmpl cmpr).1
        (nth l 0).2 cmpr).2 ∧
    HeapProp (fun a b => le b a)
      (fix_heap_property_bottom_up_aux
        (fix_heap_property_top_down_aux
          (p1.dropLast.set (nth p2 (l.length - 1)).2
            ((nth p1.dropLast (nth p2 (l.length - 1)).2).1, (nth l 0).2))
          ((vswap p2 (nth l 0).2 (l.length - 1)).dropLast) 0 cmpl cmpr).2
        (fix_heap_property_top_down_aux
          (p1.dropLast.set (nth p2 (l.length - 1)).2
            ((nth p1.dropLast (nth p2 (l.length - 1)).2).1, (nth l 0).2))
          ((vswap p2 (nth l 0).2 (l.length - 1)).dropLast) 0 cmpl cmpr).1
        (nth l 0).2 cmpr).1 ∧
    (fix_heap_property_bottom_up_aux
        (fix_heap_property_top_down_aux
          (p1.dropLast.set (nth p2 (l.length - 1)).2
            ((nth p1.dropLast (nth p2 (l.length - 1)).2).1, (nth l 0).2))
          ((vswap p2 (nth l 0).2 (l.length - 1)).dropLast) 0 cmpl cmpr).2
        (fix_heap_property_top_down_aux
          (p1.dropLast.set (nth p2 (l.length - 1)).2
            ((nth p1.dropLast (nth p2 (l.length - 1)).2).1, (nth l 0).2))
          ((vswap p2 (nth l 0).2 (l.length - 1)).dropLast) 0 cmpl cmpr).1
        (nth l 0).2 cmpr).2.length = l.length - 1 ∧
    (fix_heap_property_bottom_up_aux
        (fix_heap_property_top_down_aux
          (p1.dropLast.set (nth p2 (l.length - 1)).2
            ((nth p1.dropLast (nth p2 (l.length - 1)).2).1, (nth l 0).2))
          ((vswap p2 (nth l 0).2 (l.length - 1)).dropLast) 0 cmpl cmpr).2
        (fix_heap_property_top_down_aux
          (p1.dropLast.set (nth p2 (l.length - 1)).2
            ((nth p1.dropLast (nth p2 (l.length - 1)).2).1, (nth l 0).2))
          ((vswap p2 (nth l 0).2 (l.length - 1)).dropLast) 0 cmpl cmpr).1
        (nth l 0).2 cmpr).1.length = r.length - 1 ∧
    ((nth l 0).1 :: (fix_heap_property_bottom_up_aux
        (fix_heap_property_top_down_aux
          (p1.dropLast.set (nth p2 (l.length - 1)).2
            ((nth p1.dropLast (nth p2 (l.length - 1)).2).1, (nth l 0).2))
          ((vswap p2 (nth l 0).2 (l.length - 1)).dropLast) 0 cmpl cmpr).2
        (fix_heap_property_top_down_aux
          (p1.dropLast.set (nth p2 (l.length - 1)).2
            ((nth p1.dropLast (nth p2 (l.length - 1)).2).1, (nth l 0).2))
          ((vswap p2 (nth l 0).2 (l.length - 1)).dropLast) 0 cmpl cmpr).1
        (nth l 0).2 cmpr).2.map Prod.fst).Perm (l.map Prod.fst) ∧
    ((nth l 0).1 :: (fix_heap_property_bottom_up_aux
        (fix_heap_property_top_down_aux
          (p1.dropLast.set (nth p2 (l.length - 1)).2
            ((nth p1.dropLast (nth p2 (l.length - 1)).2).1, (nth l 0).2))
          ((vswap p2 (nth l 0).2 (l.length - 1)).dropLast) 0 cmpl cmpr).2
        (fix_heap_property_top_down_aux
          (p1.dropLast.set (nth p2 (l.length - 1)).2
            ((nth p1.dropLast (nth p2 (l.length - 1)).2).1, (nth l 0).2))
          ((vswap p2 (nth l 0).2 (l.length - 1)).dropLast) 0 cmpl cmpr).1
        (nth l 0).2 cmpr).1.map Prod.fst).Perm (r.map Prod.fst) := by
  have hrill : (nth l 0).2 < l.length - 1 := by omega
  have hAv : ∀ x,
      (nth (p1.dropLast.set (nth p2 (l.length - 1)).2
        ((nth p1.dropLast (nth p2 (l.length - 1)).2).1, (nth l 0).2)) x).1 =
      (nth p1.dropLast x).1 :=
    fun x => nth_fst_set_keep p1.dropLast (nth p2 (l.length - 1)).2 _ x
  have hAlen : (p1.dropLast.set (nth p2 (l.length - 1)).2
      ((nth p1.dropLast (nth p2 (l.length - 1)).2).1,
        (nth l 0).2)).length = l.length - 1 := by
    rw [length_set, length_dropLast, hp1len]
  have hL2v : ∀ x, 0 < x → x < l.length - 1 →
      (nth p1.dropLast x).1 = (nth l x).1 := by
    intro x hx1 hx2
    rw [nth_dropLast p1 (by omega), hp1o x (by omega) (by omega)]
  have hBlen : ((vswap p2 (nth l 0).2 (l.length - 1)).dropLast).length =
      l.length - 1 := by
    rw [length_dropLast, length_vswap, hp2len, hrlen]
  have hBri : (nth ((vswap p2 (nth l 0).2 (l.length - 1)).dropLast)
      (nth l 0).2).1 = (nth r (l.length - 1)).1 := by
    rw [nth_dropLast _ (by rw [length_vswap]; omega),
      nth_vswap_fst p2 (by omega) hricase]
    exact hp2v _
  have hBo : ∀ x, x ≠ (nth l 0).2 → x < l.length - 1 →
      (nth ((vswap p2 (nth l 0).2 (l.length - 1)).dropLast) x).1 =
      (nth r x).1 := by
    intro x hx1 hx2
    rw [nth_dropLast _ (by rw [length_vswap]; omega),
      nth_vswap_other p2 hx1 (by omega)]
    exact hp2v x
  -- mirror invariant of the pre-sift state
  have hm3 : Mirrored
      (p1.dropLast.set (nth p2 (l.length - 1)).2
        ((nth p1.dropLast (nth p2 (l.length - 1)).2).1, (nth l 0).2))
      ((vswap p2 (nth l 0).2 (l.length - 1)).dropLast) := by
    have hbase := mirrored_del_swap hm1 hp1len hn
      (by rw [hp1last]; exact hricase)
    rwa [hp1last] at hbase
  -- the state after the top-down fix of the left root
  have hQm : Mirrored
      (fix_heap_property_top_down_aux
        (p1.dropLast.set (nth p2 (l.length - 1)).2
          ((nth p1.dropLast (nth p2 (l.length - 1)).2).1, (nth l 0).2))
        ((vswap p2 (nth l 0).2 (l.length - 1)).dropLast) 0 cmpl cmpr).1
      (fix_heap_property_top_down_aux
        (p1.dropLast.set (nth p2 (l.length - 1)).2
          ((nth p1.dropLast (nth p2 (l.length - 1)).2).1, (nth l 0).2))
        ((vswap p2 (nth l 0).2 (l.length - 1)).dropLast) 0 cmpl cmpr).2 :=
    ftd_mirror 0 cmpl cmpr hm3
  have hQlen := ftd_length
    (p1.dropLast.set (nth p2 (l.length - 1)).2
      ((nth p1.dropLast (nth p2 (l.length - 1)).2).1, (nth l 0).2))
    ((vswap p2 (nth l 0).2 (l.length - 1)).dropLast) 0 cmpl cmpr
  have hQ2v : ∀ x,
      (nth (fix_heap_property_top_down_aux
        (p1.dropLast.set (nth p2 (l.length - 1)).2
          ((nth p1.dropLast (nth p2 (l.length - 1)).2).1, (nth l 0).2))
        ((vswap p2 (nth l 0).2 (l.length - 1)).dropLast) 0 cmpl cmpr).2 x).1 =
      (nth ((vswap p2 (nth l 0).2 (l.length - 1)).dropLast) x).1 :=
    fun x => ftd_snd_values _ _ _ _ _ x
  have hQ1heap : HeapProp le
      (fix_heap_property_top_down_aux
        (p1.dropLast.set (nth p2 (l.length - 1)).2
          ((nth p1.dropLast (nth p2 (l.length - 1)).2).1, (nth l 0).2))
        ((vswap p2 (nth l 0).2 (l.length - 1)).dropLast) 0 cmpl cmpr).1 := by
    apply ftd_heap le cmpl cmpr hcl hcr htot htrans hrefl _ (Nat.le_refl 0)
    · intro c hc hc0 _ hpc
      rw [hAlen] at hc
      rw [hAv c, hAv ((c - 1) / 2), hL2v c hc0 hc,
        hL2v ((c - 1) / 2) (by omega) (by omega)]
      exact hl c (by omega) hc0 (by omega)
    · intro hcon
      omega
  -- heap order of the mirror array holds except possibly upward at `ri`
  have hexc : UpExc (fun a b => le b a)
      (fix_heap_property_top_down_aux
        (p1.dropLast.set (nth p2 (l.length - 1)).2
          ((nth p1.dropLast (nth p2 (l.length - 1)).2).1, (nth l 0).2))
        ((vswap p2 (nth l 0).2 (l.length - 1)).dropLast) 0 cmpl cmpr).2
      (nth l 0).2 := by
    constructor
    · intro c hc hc0 hcri
      rw [hQlen.2, hBlen] at hc
      rw [hQ2v c, hQ2v ((c - 1) / 2), hBo c hcri (by omega)]
      by_cases hpri : (c - 1) / 2 = (nth l 0).2
      · rw [hpri, hBri]
        have h1 := hr c (by omega) hc0 (by omega)
        rw [hpri] at h1
        show le (nth r c).1 (nth r (l.length - 1)).1
        exact htrans _ _ _ (by rw [← hriv1]; exact h1)
          (hrootr (l.length - 1) (by omega))
      · rw [hBo ((c - 1) / 2) hpri (by omega)]
        exact hr c (by omega) hc0 (by omega)
    · intro c hc hc0 hcp
      rw [hQlen.2, hBlen] at hc
      have hcne : c ≠ (nth l 0).2 := by omega
      rw [hQ2v c, hQ2v (((nth l 0).2 - 1) / 2), hBo c hcne (by omega)]
      have h1 := hr c (by omega) hc0 (by omega)
      rw [hcp] at h1
      have h2 : le (nth r c).1 (nth l 0).1 := by
        rw [← hriv1]
        exact h1
      by_cases hri0 : ((nth l 0).2 - 1) / 2 = (nth l 0).2
      · rw [hri0, hBri]
        exact htrans _ _ _ h2 (hrootr (l.length - 1) (by omega))
      · rw [hBo (((nth l 0).2 - 1) / 2) hri0 (by omega)]
        exact htrans _ _ _ h2 (hrootr _ (by omega))
  have hfbu_len := fbu_length
    (fix_heap_property_top_down_aux
      (p1.dropLast.set (nth p2 (l.length - 1)).2
        ((nth p1.dropLast (nth p2 (l.length - 1)).2).1, (nth l 0).2))
      ((vswap p2 (nth l 0).2 (l.length - 1)).dropLast) 0 cmpl cmpr).2
    (fix_heap_property_top_down_aux
      (p1.dropLast.set (nth p2 (l.length - 1)).2
        ((nth p1.dropLast (nth p2 (l.length - 1)).2).1, (nth l 0).2))
      ((vswap p2 (nth l 0).2 (l.length - 1)).dropLast) 0 cmpl cmpr).1
    (nth l 0).2 cmpr
  have hriQ2 : (nth l 0).2 <
      (fix_heap_property_top_down_aux
        (p1.dropLast.set (nth p2 (l.length - 1)).2
          ((nth p1.dropLast (nth p2 (l.length - 1)).2).1, (nth l 0).2))
        ((vswap p2 (nth l 0).2 (l.length - 1)).dropLast) 0 cmpl cmpr).2.length := by
    rw [hQlen.2, hBlen]
    omega
  refine ⟨?_, ?_, ?_, ?_, ?_, ?_, ?_⟩
  · exact mirrored_symm (fbu_mirror cmpr (mirrored_symm hQm) hriQ2)
  · apply heapBelow_of_values le 0 hfbu_len.2
      (fun j => fbu_snd_values _ _ _ _ j)
    exact hQ1heap
  · exact fbu_heap (fun a b => le b a) cmpr
      (fun a b => by rw [hcr]; exact hcl b a)
      (fun a b h => htot b a h)
      (fun a b c h1 h2 => htrans c b a h2 h1)
      _ hriQ2 hexc
  · rw [hfbu_len.2, hQlen.1, hAlen]
  · rw [hfbu_len.1, hQlen.2, hBlen, hrlen]
  · -- left values
    have hv1 : (fix_heap_property_bottom_up_aux
        (fix_heap_property_top_down_aux
          (p1.dropLast.set (nth p2 (l.length - 1)).2
            ((nth p1.dropLast (nth p2 (l.length - 1)).2).1, (nth l 0).2))
          ((vswap p2 (nth l 0).2 (l.length - 1)).dropLast) 0 cmpl cmpr).2
        (fix_heap_property_top_down_aux
          (p1.dropLast.set (nth p2 (l.length - 1)).2
            ((nth p1.dropLast (nth p2 (l.length - 1)).2).1, (nth l 0).2))
          ((vswap p2 (nth l 0).2 (l.length - 1)).dropLast) 0 cmpl cmpr).1
        (nth l 0).2 cmpr).2.map Prod.fst =
        (fix_heap_property_top_down_aux
          (p1.dropLast.set (nth p2 (l.length - 1)).2
            ((nth p1.dropLast (nth p2 (l.length - 1)).2).1, (nth l 0).2))
          ((vswap p2 (nth l 0).2 (l.length - 1)).dropLast) 0 cmpl cmpr).1.map
          Prod.fst :=
      map_fst_eq_of_nth hfbu_len.2 (fun j => fbu_snd_values _ _ _ _ j)
    have hv2 : (p1.dropLast.set (nth p2 (l.length - 1)).2
        ((nth p1.dropLast (nth p2 (l.length - 1)).2).1,
          (nth l 0).2)).map Prod.fst = p1.dropLast.map Prod.fst :=
      map_fst_eq_of_nth (by rw [length_set]) hAv
    have h1 : ((nth l 0).1 :: p1.dropLast.map Prod.fst).Perm
        (p1.map Prod.fst) := by
      have hc := cons_last_perm p1 (by omega)
      rw [hp1len, hp1last] at hc
      exact hc
    rw [hv1]
    refine ((List.Perm.cons _ (ftd_fst_perm _ _ _ _ _)).trans ?_).trans hp1perm
    rw [hv2]
    exact h1
  · -- right values
    have hv1 : (fix_heap_property_top_down_aux
        (p1.dropLast.set (nth p2 (l.length - 1)).2
          ((nth p1.dropLast (nth p2 (l.length - 1)).2).1, (nth l 0).2))
        ((vswap p2 (nth l 0).2 (l.length - 1)).dropLast) 0 cmpl cmpr).2.map
        Prod.fst =
        ((vswap p2 (nth l 0).2 (l.length - 1)).dropLast).map Prod.fst :=
      map_fst_eq_of_nth hQlen.2 hQ2v
    have hvlen : (vswap p2 (nth l 0).2 (l.length - 1)).length = l.length := by
      rw [length_vswap, hp2len, hrlen]
    have h1 : ((nth l 0).1 ::
        ((vswap p2 (nth l 0).2 (l.length - 1)).dropLast).map Prod.fst).Perm
        ((vswap p2 (nth l 0).2 (l.length - 1)).map Prod.fst) := by
      have hc := cons_last_perm (vswap p2 (nth l 0).2 (l.length - 1))
        (by rw [hvlen]; omega)
      rw [hvlen] at hc
      have hhead : nth (vswap p2 (nth l 0).2 (l.length - 1)) (l.length - 1) =
          nth p2 (nth l 0).2 :=
        nth_vswap_snd p2 (by omega)
      rw [hhead] at hc
      have hheadv : (nth p2 (nth l 0).2).1 = (nth l 0).1 := by
        rw [hp2v]
        exact hriv1
      rwa [hheadv] at hc
    have h2 : ((vswap p2 (nth l 0).2 (l.length - 1)).map Prod.fst).Perm
        (p2.map Prod.fst) :=
      (vswap_perm p2 (by omega) (by omega)).map Prod.fst
    have hp2r : p2.map Prod.fst = r.map Prod.fst :=
      map_fst_eq_of_nth hp2len hp2v
    refine (List.Perm.cons _ (fbu_fst_perm _ cmpr hriQ2)).trans ?_
    rw [hv1]
    exact (h1.trans h2).trans (hp2r ▸ List.Perm.refl _)

/-- Full specification of `del_aux` on a state satisfying the invariants:
the invariants are preserved, the returned element is the left root, both
arrays shrink by one, and re-adjoining the returned value is a permutation
of the old contents. -/
theorem del_aux_main (le : α → α → Prop) (cmpl cmpr : α → α → Bool)
    (hcl : ∀ a b, cmpl a b = false ↔ le b a)
    (hcr : ∀ a b, cmpr a b = cmpl b a)
    (htot : ∀ a b, ¬ le a b → le b a)
    (htrans : ∀ a b c, le a b → le b c → le a c)
    (hrefl : ∀ a, le a a)
    {l r : List (α × Nat)} (hm : Mirrored l r)
    (hl : HeapProp le l) (hr : HeapProp (fun a b => le b a) r) :
    Mirrored (del_aux l r cmpl cmpr).2.1 (del_aux l r cmpl cmpr).2.2 ∧
    HeapProp le (del_aux l r cmpl cmpr).2.1 ∧
    HeapProp (fun a b => le b a) (del_aux l r cmpl cmpr).2.2 ∧
    (l.length = 0 → del_aux l r cmpl cmpr = (none, l, r)) ∧
    (0 < l.length →
      (del_aux l r cmpl cmpr).1 = some (nth l 0).1 ∧
      (del_aux l r cmpl cmpr).2.1.length = l.length - 1 ∧
      (del_aux l r cmpl cmpr).2.2.length = r.length - 1 ∧
      ((nth l 0).1 :: (del_aux l r cmpl cmpr).2.1.map Prod.fst).Perm
        (l.map Prod.fst) ∧
      ((nth l 0).1 :: (del_aux l r cmpl cmpr).2.2.map Prod.fst).Perm
        (r.map Prod.fst)) := by
  by_cases h0 : l.length = 0
  · have hd : del_aux l r cmpl cmpr = (none, l, r) := by
      simp only [del_aux]
      rw [if_pos h0]
    rw [hd]
    exact ⟨hm, hl, hr, fun _ => rfl, fun hcon => absurd hcon (by omega)⟩
  by_cases h1 : l.length = 1
  · have hd : del_aux l r cmpl cmpr = (some (nth l 0).1, [], []) := by
      simp only [del_aux]
      rw [if_neg h0, if_pos h1]
    rw [hd]
    have hrlen1 : r.length = 1 := by rw [← hm.1]; exact h1
    have hval : (nth r 0).1 = (nth l 0).1 := by
      obtain ⟨hb1, hb2, hb3⟩ := hm.2.2 0 (by omega)
      have hz : (nth r 0).2 = 0 := by omega
      rw [hz] at hb3
      exact hb3.symm
    refine ⟨mirrored_nil, ?_, ?_, fun hcon => absurd hcon (by omega),
      fun _ => ⟨rfl, by simp [h1], by simp [hrlen1], ?_, ?_⟩⟩
    · intro c hc _ _
      simp at hc
    · intro c hc _ _
      simp at hc
    · obtain ⟨a, ha⟩ := List.length_eq_one.mp h1
      subst ha
      have hnth : nth ([a] : List (α × Nat)) 0 = a := rfl
      rw [hnth]
      exact List.Perm.refl _
    · obtain ⟨b, hb⟩ := List.length_eq_one.mp hrlen1
      rw [hb] at hval
      rw [hb, ← hval]
      have hnth : nth ([b] : List (α × Nat)) 0 = b := rfl
      rw [hnth]
      exact List.Perm.refl _
  -- the general case: at least two elements
  have hlen2 : 2 ≤ l.length := by omega
  have hrlen : r.length = l.length := hm.1.symm
  have hm1 : Mirrored (swap l r 0 (l.length - 1)).1
      (swap l r 0 (l.length - 1)).2 :=
    swap_mirror hm (by omega) (by omega) (by omega)
  have hp1len : (swap l r 0 (l.length - 1)).1.length = l.length :=
    swap_length_fst l r 0 (l.length - 1)
  have hp2len : (swap l r 0 (l.length - 1)).2.length = r.length :=
    swap_length_snd l r 0 (l.length - 1)
  have hp1last : nth (swap l r 0 (l.length - 1)).1 (l.length - 1) =
      nth l 0 := by
    simp only [swap]
    exact nth_vswap_snd l (by omega)
  have hp1o : ∀ x, x ≠ 0 → x ≠ l.length - 1 →
      nth (swap l r 0 (l.length - 1)).1 x = nth l x := by
    intro x h1x h2x
    simp only [swap]
    exact nth_vswap_other l h1x h2x
  have hp2v : ∀ k, (nth (swap l r 0 (l.length - 1)).2 k).1 = (nth r k).1 :=
    swap_snd_values l r 0 (l.length - 1)
  have hp1perm : ((swap l r 0 (l.length - 1)).1.map Prod.fst).Perm
      (l.map Prod.fst) :=
    swap_fst_perm l r (by omega) (by omega)
  have hroot := root_le_all le htrans hrefl hl
  have hrootr : ∀ q, q < r.length → le (nth l 0).1 (nth r q).1 := by
    intro q hq
    obtain ⟨hq1, hq2, hq3⟩ := hm.2.2 q hq
    rw [← hq3]
    exact hroot _ hq1
  have hri_lt : (nth l 0).2 < r.length := (hm.2.1 0 (by omega)).1
  have hriv1 : (nth r (nth l 0).2).1 = (nth l 0).1 := (hm.2.1 0 (by omega)).2.2
  simp only [del_aux]
  rw [if_neg h0, if_neg h1, hp1last]
  by_cases hri : (nth l 0).2 = l.length - 1
  · rw [if_pos hri]
    obtain ⟨c1, c2, c3, c4, c5, c6, c7⟩ := del_case_eq le cmpl cmpr hcl hcr
      htot htrans hrefl hlen2 hrlen hp1len hp2len hm1 hp1last hp1o hp2v
      hp1perm hl hr hri
    exact ⟨c1, c2, c3, fun hcon => absurd hcon (by omega),
      fun _ => ⟨rfl, c4, c5, c6, c7⟩⟩
  · rw [if_neg hri]
    obtain ⟨c1, c2, c3, c4, c5, c6, c7⟩ := del_case_ne le cmpl cmpr hcl hcr
      htot htrans hrefl hlen2 hrlen hp1len hp2len hm1 hp1last hp1o hp2v
      hp1perm hl hr hri hri_lt hriv1 hrootr
    exact ⟨c1, c2, c3, fun hcon => absurd hcon (by omega),
      fun _ => ⟨rfl, c4, c5, c6, c7⟩⟩

end DelCases

section InsMake

open DoubleHeap (swap fix_heap_property_bottom_up_aux
  fix_heap_property_top_down_aux fix_heap_property_bottom_up ins ins_all
  make_heap_loop make_heap del_aux)

variable {α : Type} [Inhabited α]

/-- `UpExc` only depends on the value components and the length. -/
theorem upExc_of_values (le : α → α → Prop) {a b : List (α × Nat)} (j : Nat)
    (hlen : b.length = a.length) (hv : ∀ k, (nth b k).1 = (nth a k).1)
    (h : UpExc le a j) : UpExc le b j := by
  constructor
  · intro c hc hc0 hcj
    rw [hv, hv]
    exact h.1 c (by omega) hc0 hcj
  · intro c hc hc0 hcp
    rw [hv, hv]
    exact h.2 c (by omega) hc0 hcp

/-- Appending a fresh slot violates heap order at most on the edge into it. -/
theorem upExc_append (le : α → α → Prop) {L : List (α × Nat)} (x : α)
    (m : Nat) (hL : HeapProp le L) : UpExc le (L ++ [(x, m)]) L.length := by
  constructor
  · intro c hc hc0 hcj
    rw [List.length_append, List.length_cons, List.length_nil] at hc
    have hclt : c < L.length := by omega
    rw [nth_append_left L _ hclt, nth_append_left L _ (by omega)]
    exact hL c hclt hc0 (by omega)
  · intro c hc hc0 hcp
    rw [List.length_append, List.length_cons, List.length_nil] at hc
    omega

/-- Appending the same fresh element with a self-referencing mirror to both
arrays preserves the mirror invariant. -/
theorem mirrored_append {L R : List (α × Nat)} (hm : Mirrored L R) (x : α) :
    Mirrored (L ++ [(x, L.length)]) (R ++ [(x, L.length)]) := by
  obtain ⟨hlen, hfwd, hbwd⟩ := hm
  refine ⟨by simp [hlen], ?_, ?_⟩
  · intro i hi
    rw [List.length_append, List.length_cons, List.length_nil] at hi
    by_cases hilt : i < L.length
    · obtain ⟨h1, h2, h3⟩ := hfwd i hilt
      rw [nth_append_left L _ hilt, nth_append_left R _ h1]
      refine ⟨by simp; omega, h2, h3⟩
    · have hieq : i = L.length := by omega
      subst hieq
      rw [nth_append_last L (x, L.length)]
      have hR : nth (R ++ [(x, L.length)]) L.length = (x, L.length) := by
        rw [hlen]
        exact nth_append_last R (x, R.length)
      rw [hR]
      exact ⟨by simp; omega, rfl, rfl⟩
  · intro j hj
    rw [List.length_append, List.length_cons, List.length_nil] at hj
    by_cases hjlt : j < R.length
    · obtain ⟨h1, h2, h3⟩ := hbwd j hjlt
      rw [nth_append_left R _ hjlt, nth_append_left L _ h1]
      refine ⟨by simp; omega, h2, h3⟩
    · have hjeq : j = R.length := by omega
      subst hjeq
      have hR : nth (R ++ [(x, L.length)]) R.length = (x, L.length) :=
        nth_append_last R (x, L.length)
      rw [hR, nth_append_last L (x, L.length)]
      exact ⟨by simp, by rw [hlen], rfl⟩

/-- Full specification of `ins` on a state satisfying the invariant. -/
theorem ins_main [LinearOrder α] {h : DoubleHeap α} (x : α) (hinv : Inv h) :
    Inv (h.ins x) ∧
    (h.ins x).min_array.length = h.min_array.length + 1 ∧
    (h.ins x).max_array.length = h.max_array.length + 1 ∧
    ((h.ins x).min_array.map Prod.fst).Perm (x :: h.min_array.map Prod.fst) ∧
    ((h.ins x).max_array.map Prod.fst).Perm
      (x :: h.max_array.map Prod.fst) := by
  obtain ⟨hm, hlmin, hlmax⟩ := hinv
  have hlen : h.min_array.length = h.max_array.length := hm.1
  have happ : Mirrored (h.min_array ++ [(x, h.min_array.length)])
      (h.max_array ++ [(x, h.min_array.length)]) := mirrored_append hm x
  have happlenL : (h.min_array ++ [(x, h.min_array.length)]).length =
      h.min_array.length + 1 := by simp
  have happlenR : (h.max_array ++ [(x, h.min_array.length)]).length =
      h.max_array.length + 1 := by simp
  have hexcL : UpExc (fun a b => a ≤ b)
      (h.min_array ++ [(x, h.min_array.length)]) h.min_array.length :=
    upExc_append _ x _ hlmin
  have hexcR : UpExc (fun a b => b ≤ a)
      (h.max_array ++ [(x, h.min_array.length)]) h.max_array.length :=
    upExc_append _ x _ hlmax
  simp only [ins, DoubleHeap.fix_heap_property_bottom_up]
  -- the first bottom-up pass, on the min-array
  have hp_mirror := fbu_mirror (l := h.min_array ++ [(x, h.min_array.length)])
    (r := h.max_array ++ [(x, h.min_array.length)])
    (i := h.min_array.length) ltb happ (by rw [happlenL]; omega)
  have hp_len := fbu_length (h.min_array ++ [(x, h.min_array.length)])
    (h.max_array ++ [(x, h.min_array.length)]) h.min_array.length ltb
  have hp_heap : HeapProp (fun a b => a ≤ b)
      (fix_heap_property_bottom_up_aux
        (h.min_array ++ [(x, h.min_array.length)])
        (h.max_array ++ [(x, h.min_array.length)])
        h.min_array.length ltb).1 :=
    fbu_heap _ ltb (fun a b => ltb_false_iff a b)
      (fun a b hn => le_of_not_le hn) (fun a b c => le_trans)
      _ (by rw [happlenL]; omega) hexcL
  have hp_snd := fbu_snd_values (h.min_array ++ [(x, h.min_array.length)])
    (h.max_array ++ [(x, h.min_array.length)]) h.min_array.length ltb
  have hp_perm := fbu_fst_perm
    (l := h.min_array ++ [(x, h.min_array.length)])
    (h.max_array ++ [(x, h.min_array.length)]) (i := h.min_array.length)
    ltb (by rw [happlenL]; omega)
  -- the second bottom-up pass, on the max-array
  have hexcR2 : UpExc (fun a b => b ≤ a)
      (fix_heap_property_bottom_up_aux
        (h.min_array ++ [(x, h.min_array.length)])
        (h.max_array ++ [(x, h.min_array.length)])
        h.min_array.length ltb).2 h.min_array.length := by
    rw [← hlen] at hexcR
    exact upExc_of_values _ _ hp_len.2 (fun k => hp_snd k) hexcR
  have hq_mirror := fbu_mirror (i := h.min_array.length) gtb
    (mirrored_symm hp_mirror) (by rw [hp_len.2, happlenR]; omega)
  have hq_len := fbu_length
    (fix_heap_property_bottom_up_aux
      (h.min_array ++ [(x, h.min_array.length)])
      (h.max_array ++ [(x, h.min_array.length)]) h.min_array.length ltb).2
    (fix_heap_property_bottom_up_aux
      (h.min_array ++ [(x, h.min_array.length)])
      (h.max_array ++ [(x, h.min_array.length)]) h.min_array.length ltb).1
    h.min_array.length gtb
  have hq_heap : HeapProp (fun a b => b ≤ a)
      (fix_heap_property_bottom_up_aux
        (fix_heap_property_bottom_up_aux
          (h.min_array ++ [(x, h.min_array.length)])
          (h.max_array ++ [(x, h.min_array.length)])
          h.min_array.length ltb).2
        (fix_heap_property_bottom_up_aux
          (h.min_array ++ [(x, h.min_array.length)])
          (h.max_array ++ [(x, h.min_array.length)])
          h.min_array.length ltb).1
        h.min_array.length gtb).1 :=
    fbu_heap _ gtb (fun a b => gtb_false_iff a b)
      (fun a b hn => le_of_not_le hn)
      (fun a b c h1 h2 => le_trans h2 h1)
      _ (by rw [hp_len.2, happlenR]; omega) hexcR2
  have hq_snd := fbu_snd_values
    (fix_heap_property_bottom_up_aux
      (h.min_array ++ [(x, h.min_array.length)])
      (h.max_array ++ [(x, h.min_array.length)]) h.min_array.length ltb).2
    (fix_heap_property_bottom_up_aux
      (h.min_array ++ [(x, h.min_array.length)])
      (h.max_array ++ [(x, h.min_array.length)]) h.min_array.length ltb).1
    h.min_array.length gtb
  have hq_perm := fbu_fst_perm
    (fix_heap_property_bottom_up_aux
      (h.min_array ++ [(x, h.min_array.length)])
      (h.max_array ++ [(x, h.min_array.length)]) h.min_array.length ltb).1
    (i := h.min_array.length) gtb (by rw [hp_len.2, happlenR]; omega)
  refine ⟨⟨mirrored_symm hq_mirror, ?_, ?_⟩, ?_, ?_, ?_, ?_⟩
  · exact heapBelow_of_values _ 0 hq_len.2 (fun j => hq_snd j) hp_heap
  · exact hq_heap
  · rw [hq_len.2, hp_len.1, happlenL]
  · rw [hq_len.1, hp_len.2, happlenR]
  · rw [map_fst_eq_of_nth hq_len.2 (fun j => hq_snd j)]
    refine hp_perm.trans ?_
    simp only [List.map_append, List.map_cons, List.map_nil]
    exact List.perm_append_singleton _ _
  · refine hq_perm.trans ?_
    rw [map_fst_eq_of_nth hp_len.2 (fun j => hp_snd j)]
    simp only [List.map_append, List.map_cons, List.map_nil]
    exact List.perm_append_singleton _ _

/-- `ins_all` (repeated `ins`) preserves the invariant and inserts exactly
the given elements. -/
theorem ins_all_main [LinearOrder α] {h : DoubleHeap α} (v : List α)
    (hinv : Inv h) :
    Inv (h.ins_all v) ∧
    ((h.ins_all v).min_array.map Prod.fst).Perm
      (h.min_array.map Prod.fst ++ v) ∧
    ((h.ins_all v).max_array.map Prod.fst).Perm
      (h.max_array.map Prod.fst ++ v) := by
  induction v generalizing h with
  | nil =>
    refine ⟨hinv, ?_, ?_⟩ <;> simp [ins_all]
  | cons a t ih =>
    have hstep := ins_main a hinv
    have hrest := ih (hstep.1)
    have hall : h.ins_all (a :: t) = (h.ins a).ins_all t := by
      simp [ins_all]
    rw [hall]
    refine ⟨hrest.1, ?_, ?_⟩
    · refine hrest.2.1.trans ?_
      refine (hstep.2.2.2.1.append_right t).trans ?_
      exact (List.perm_middle).symm
    · refine hrest.2.2.trans ?_
      refine (hstep.2.2.2.2.append_right t).trans ?_
      exact (List.perm_middle).symm

/-- The enumerated initial arrays of `make_heap` mirror themselves. -/
theorem mirrored_enum (v : List α) :
    Mirrored (v.enum.map (fun p => (p.2, p.1)))
      (v.enum.map (fun p => (p.2, p.1))) := by
  have hlen : (v.enum.map (fun p => ((p.2 : α), p.1))).length = v.length := by
    simp
  have hnth : ∀ i, i < v.length →
      (nth (v.enum.map (fun p => ((p.2 : α), p.1))) i).2 = i := by
    intro i hi
    rw [nth_eq_getElem _ i (by simpa using hi)]
    simp
  refine ⟨rfl, ?_, ?_⟩ <;>
    · intro i hi
      rw [hlen] at hi
      rw [hnth i hi]
      exact ⟨by rw [hlen]; omega, hnth i hi, rfl⟩

/-- The heapify loop of `make_heap` establishes both heap invariants while
preserving the mirror invariant and the contents. -/
theorem make_heap_loop_spec [LinearOrder α] :
    ∀ (k : Nat) (L R : List (α × Nat)), Mirrored L R →
    HeapBelow (fun a b => a ≤ b) L k → HeapBelow (fun a b => b ≤ a) R k →
    Mirrored (make_heap_loop L R k).1 (make_heap_loop L R k).2 ∧
    HeapProp (fun a b => a ≤ b) (make_heap_loop L R k).1 ∧
    HeapProp (fun a b => b ≤ a) (make_heap_loop L R k).2 ∧
    (make_heap_loop L R k).1.length = L.length ∧
    (make_heap_loop L R k).2.length = R.length ∧
    ((make_heap_loop L R k).1.map Prod.fst).Perm (L.map Prod.fst) ∧
    ((make_heap_loop L R k).2.map Prod.fst).Perm (R.map Prod.fst) := by
  intro k
  induction k with
  | zero =>
    intro L R hm hL hR
    exact ⟨hm, hL, hR, rfl, rfl, List.Perm.refl _, List.Perm.refl _⟩
  | succ k ih =>
    intro L R hm hL hR
    have hp_len := ftd_length L R k ltb gtb
    have hp_mirror := ftd_mirror k ltb gtb hm
    have hp_snd := ftd_snd_values L R k ltb gtb
    have hp_perm := ftd_fst_perm L R k ltb gtb
    have hp_heap : HeapBelow (fun a b => a ≤ b)
        (fix_heap_property_top_down_aux L R k ltb gtb).1 k := by
      apply ftd_heap (fun a b => a ≤ b) ltb gtb
        (fun a b => ltb_false_iff a b) (fun a b => gtb_eq_ltb a b)
        (fun a b hn => le_of_not_le hn) (fun a b c => le_trans)
        (fun a => le_refl a) R (Nat.le_refl k)
      · intro c hc hc0 hk hpc
        exact hL c hc hc0 (by omega)
      · intro h1 h2
        omega
    have hp_heapR : HeapBelow (fun a b => b ≤ a)
        (fix_heap_property_top_down_aux L R k ltb gtb).2 (k + 1) :=
      heapBelow_of_values _ _ hp_len.2 (fun j => hp_snd j) hR
    have hq_len := ftd_length (fix_heap_property_top_down_aux L R k ltb gtb).2
      (fix_heap_property_top_down_aux L R k ltb gtb).1 k gtb ltb
    have hq_mirror := ftd_mirror k gtb ltb (mirrored_symm hp_mirror)
    have hq_snd := ftd_snd_values
      (fix_heap_property_top_down_aux L R k ltb gtb).2
      (fix_heap_property_top_down_aux L R k ltb gtb).1 k gtb ltb
    have hq_perm := ftd_fst_perm
      (fix_heap_property_top_down_aux L R k ltb gtb).2
      (fix_heap_property_top_down_aux L R k ltb gtb).1 k gtb ltb
    have hq_heap : HeapBelow (fun a b => b ≤ a)
        (fix_heap_property_top_down_aux
          (fix_heap_property_top_down_aux L R k ltb gtb).2
          (fix_heap_property_top_down_aux L R k ltb gtb).1 k gtb ltb).1 k := by
      apply ftd_heap (fun a b => b ≤ a) gtb ltb
        (fun a b => gtb_false_iff a b) (fun a b => ltb_eq_gtb a b)
        (fun a b hn => le_of_not_le hn)
        (fun a b c h1 h2 => le_trans h2 h1)
        (fun a => le_refl a) _ (Nat.le_refl k)
      · intro c hc hc0 hk hpc
        exact hp_heapR c hc hc0 (by omega)
      · intro h1 h2
        omega
    have hq_heapL : HeapBelow (fun a b => a ≤ b)
        (fix_heap_property_top_down_aux
          (fix_heap_property_top_down_aux L R k ltb gtb).2
          (fix_heap_property_top_down_aux L R k ltb gtb).1 k gtb ltb).2 k :=
      heapBelow_of_values _ _ hq_len.2 (fun j => hq_snd j) hp_heap
    have hrec := ih _ _ (mirrored_symm hq_mirror) hq_heapL hq_heap
    simp only [make_heap_loop]
    refine ⟨hrec.1, hrec.2.1, hrec.2.2.1, ?_, ?_, ?_, ?_⟩
    · rw [hrec.2.2.2.1, hq_len.2, hp_len.1]
    · rw [hrec.2.2.2.2.1, hq_len.1, hp_len.2]
    · refine hrec.2.2.2.2.2.1.trans ?_
      rw [map_fst_eq_of_nth hq_len.2 (fun j => hq_snd j)]
      exact hp_perm
    · refine hrec.2.2.2.2.2.2.trans ?_
      refine hq_perm.trans ?_
      rw [map_fst_eq_of_nth hp_len.2 (fun j => hp_snd j)]

/-- Full specification of `make_heap`. -/
theorem make_heap_main [LinearOrder α] (v : List α) :
    Inv (make_heap v : DoubleHeap α) ∧
    (make_heap v : DoubleHeap α).min_array.length = v.length ∧
    (make_heap v : DoubleHeap α).max_array.length = v.length ∧
    ((make_heap v : DoubleHeap α).min_array.map Prod.fst).Perm v ∧
    ((make_heap v : DoubleHeap α).max_array.map Prod.fst).Perm v := by
  have henumlen : (v.enum.map (fun p => ((p.2 : α), p.1))).length = v.length := by
    simp
  have henumfst : (v.enum.map (fun p => ((p.2 : α), p.1))).map Prod.fst = v := by
    rw [List.map_map]
    have : (Prod.fst ∘ fun p : Nat × α => (p.2, p.1)) = Prod.snd := rfl
    rw [this]
    exact List.enum_map_snd v
  have hvac : HeapBelow (fun a b : α => a ≤ b)
      (v.enum.map (fun p => (p.2, p.1)))
      (v.enum.map (fun p => ((p.2 : α), p.1))).length := by
    intro c hc hc0 hk
    rw [henumlen] at hc hk
    omega
  have hvac2 : HeapBelow (fun a b : α => b ≤ a)
      (v.enum.map (fun p => (p.2, p.1)))
      (v.enum.map (fun p => ((p.2 : α), p.1))).length := by
    intro c hc hc0 hk
    rw [henumlen] at hc hk
    omega
  have hloop := make_heap_loop_spec
    (v.enum.map (fun p => ((p.2 : α), p.1))).length
    (v.enum.map (fun p => (p.2, p.1))) (v.enum.map (fun p => (p.2, p.1)))
    (mirrored_enum v) hvac hvac2
  simp only [make_heap]
  refine ⟨⟨hloop.1, hloop.2.1, hloop.2.2.1⟩, ?_, ?_, ?_, ?_⟩
  · rw [hloop.2.2.2.1, henumlen]
  · rw [hloop.2.2.2.2.1, henumlen]
  · exact hloop.2.2.2.2.2.1.trans (by rw [henumfst])
  · exact hloop.2.2.2.2.2.2.trans (by rw [henumfst])

end InsMake

section Master

open DoubleHeap (del_aux)

variable {α : Type} [Inhabited α] [LinearOrder α]

/-- Every reachable state satisfies the full internal invariant: mirror
correctness plus both heap shape invariants. -/
theorem reachable_inv {h : DoubleHeap α} (hr : Reachable h) : Inv h := by
  induction hr with
  | new =>
    refine ⟨mirrored_nil, ?_, ?_⟩ <;>
      · intro c hc _ _
        simp [DoubleHeap.new] at hc
  | ins h x _ ih => exact (ins_main x ih).1
  | ins_all h v _ ih => exact (ins_all_main v ih).1
  | make_heap v => exact (make_heap_main v).1
  | del_min h _ ih =>
    obtain ⟨hm, hlmin, hlmax⟩ := ih
    have hd := del_aux_main (fun a b => a ≤ b) ltb gtb
      (fun a b => ltb_false_iff a b) (fun a b => gtb_eq_ltb a b)
      (fun a b hn => le_of_not_le hn) (fun a b c => le_trans)
      (fun a => le_refl a) hm hlmin hlmax
    exact ⟨hd.1, hd.2.1, hd.2.2.1⟩
  | del_max h _ ih =>
    obtain ⟨hm, hlmin, hlmax⟩ := ih
    have hd := del_aux_main (fun a b => b ≤ a) gtb ltb
      (fun a b => gtb_false_iff a b) (fun a b => ltb_eq_gtb a b)
      (fun a b hn => le_of_not_le hn)
      (fun a b c h1 h2 => le_trans h2 h1)
      (fun a => le_refl a) (mirrored_symm hm) hlmax hlmin
    exact ⟨mirrored_symm hd.1, hd.2.2.1, hd.2.1⟩

end Master

section Checked

open DoubleHeap (swap swap_ok fix_bu_ok_go fix_bu_ok fix_td_ok_go fix_td_ok
  del_aux_ok fix_heap_property_top_down_aux)

variable {α : Type} [Inhabited α]

theorem swap_ok_true {l r : List (α × Nat)} {i j : Nat} (hm : Mirrored l r)
    (hi : i < l.length) (hj : j < l.length) : swap_ok l r i j = true := by
  simp only [swap_ok, Bool.and_eq_true, decide_eq_true_eq]
  exact ⟨⟨⟨hi, hj⟩, (hm.2.1 i hi).1⟩, (hm.2.1 j hj).1⟩

theorem fix_bu_ok_go_true (fuel : Nat) {l r : List (α × Nat)} {i : Nat}
    (cmp : α → α → Bool) (hm : Mirrored l r) (hi : i < l.length) :
    fix_bu_ok_go fuel l r i cmp = true := by
  induction fuel generalizing l r i with
  | zero => rfl
  | succ fuel ih =>
    simp only [fix_bu_ok_go]
    split
    · rfl
    · rename_i h0
      rw [decide_eq_true hi, decide_eq_true (show (i - 1) / 2 < l.length by omega)]
      split
      · rw [swap_ok_true hm hi (by omega)]
        rw [ih (swap_mirror hm hi (by omega) (by omega))
          (by rw [swap_length_fst]; omega)]
        rfl
      · rfl

theorem fix_td_ok_go_true (fuel : Nat) {l r : List (α × Nat)} (i : Nat)
    (lt gt : α → α → Bool) (hm : Mirrored l r) :
    fix_td_ok_go fuel l r i lt gt = true := by
  induction fuel generalizing l r i with
  | zero => rfl
  | succ fuel ih =>
    simp only [fix_td_ok_go]
    by_cases hg2 : l.length > 2 * i + 2
    · rw [if_pos hg2, decide_eq_true (show i < l.length by omega)]
      cases hsel : lt (nth l (2 * i + 1)).1 (nth l (2 * i + 2)).1
      · rw [if_neg Bool.false_ne_true]
        split
        · rw [swap_ok_true hm (by omega) (by omega),
            ih _ (swap_mirror hm (by omega) (by omega) (by omega))]
          rfl
        · rfl
      · rw [if_pos rfl]
        split
        · rw [swap_ok_true hm (by omega) (by omega),
            ih _ (swap_mirror hm (by omega) (by omega) (by omega))]
          rfl
        · rfl
    · rw [if_neg hg2]
      by_cases hg1 : l.length > 2 * i + 1
      · rw [if_pos hg1, decide_eq_true (show i < l.length by omega)]
        split
        · rw [swap_ok_true hm (by omega) (by omega),
            ih _ (swap_mirror hm (by omega) (by omega) (by omega))]
          rfl
        · rfl
      · rw [if_neg hg1]

theorem fix_td_ok_true {l r : List (α × Nat)} (i : Nat)
    (lt gt : α → α → Bool) (hm : Mirrored l r) :
    fix_td_ok l r i lt gt = true :=
  fix_td_ok_go_true _ i lt gt hm

theorem fix_bu_ok_true {l r : List (α × Nat)} {i : Nat} (cmp : α → α → Bool)
    (hm : Mirrored l r) (hi : i < l.length) : fix_bu_ok l r i cmp = true :=
  fix_bu_ok_go_true _ cmp hm hi

/-- On a state satisfying the mirror and size-equality invariants with at
least two elements, every index access performed by `del_aux` is in bounds. -/
theorem del_aux_ok_true {l r : List (α × Nat)} (cmpl cmpr : α → α → Bool)
    (hm : Mirrored l r) (h2 : 2 ≤ l.length) :
    del_aux_ok l r cmpl cmpr = true := by
  have hrlen : r.length = l.length := hm.1.symm
  have hm1 : Mirrored (swap l r 0 (l.length - 1)).1
      (swap l r 0 (l.length - 1)).2 :=
    swap_mirror hm (by omega) (by omega) (by omega)
  have hp1len : (swap l r 0 (l.length - 1)).1.length = l.length :=
    swap_length_fst l r 0 (l.length - 1)
  have hp2len : (swap l r 0 (l.length - 1)).2.length = r.length :=
    swap_length_snd l r 0 (l.length - 1)
  have hp1last : nth (swap l r 0 (l.length - 1)).1 (l.length - 1) =
      nth l 0 := by
    simp only [swap]
    exact nth_vswap_snd l (by omega)
  simp only [del_aux_ok]
  rw [if_neg (by omega), if_neg (by omega),
    swap_ok_true hm (by omega) (by omega)]
  rw [decide_eq_true (show l.length - 1 < (swap l r 0 (l.length - 1)).1.length
    by rw [hp1len]; omega)]
  rw [hp1last]
  by_cases hri : (nth l 0).2 = l.length - 1
  · rw [if_pos hri]
    have hmdrop : Mirrored (swap l r 0 (l.length - 1)).1.dropLast
        (swap l r 0 (l.length - 1)).2.dropLast := by
      apply mirrored_dropLast_both hm1 (by omega)
      rw [hp1len, hp1last]
      exact hri
    rw [fix_td_ok_true 0 cmpl cmpr hmdrop]
    rfl
  · rw [if_neg hri]
    have hri_lt : (nth l 0).2 < r.length := (hm.2.1 0 (by omega)).1
    -- the crux: the mirror of the last slot of `r` cannot point at the
    -- popped last slot of `l`
    have htu2 : (nth (swap l r 0 (l.length - 1)).1
        (nth (swap l r 0 (l.length - 1)).2 (l.length - 1)).2).2 =
        l.length - 1 :=
      (hm1.2.2 (l.length - 1) (by rw [hp2len, hrlen]; omega)).2.1
    have htu : (nth (swap l r 0 (l.length - 1)).2 (l.length - 1)).2 <
        l.length := by
      have hx := (hm1.2.2 (l.length - 1) (by rw [hp2len, hrlen]; omega)).1
      rwa [hp1len] at hx
    have htne : (nth (swap l r 0 (l.length - 1)).2 (l.length - 1)).2 ≠
        l.length - 1 := by
      intro hcon
      rw [hcon, hp1last] at htu2
      exact hri htu2
    have hm3 : Mirrored
        ((swap l r 0 (l.length - 1)).1.dropLast.set
          (nth (swap l r 0 (l.length - 1)).2 (l.length - 1)).2
          ((nth (swap l r 0 (l.length - 1)).1.dropLast
            (nth (swap l r 0 (l.length - 1)).2 (l.length - 1)).2).1,
            (nth l 0).2))
        ((vswap (swap l r 0 (l.length - 1)).2 (nth l 0).2
          (l.length - 1)).dropLast) := by
      have hbase := mirrored_del_swap hm1 hp1len h2
        (by rw [hp1last]; exact hri)
      rwa [hp1last] at hbase
    rw [decide_eq_true (show l.length - 1 <
        (swap l r 0 (l.length - 1)).2.length by rw [hp2len]; omega),
      decide_eq_true (show (nth (swap l r 0 (l.length - 1)).2
        (l.length - 1)).2 < (swap l r 0 (l.length - 1)).1.dropLast.length by
        rw [length_dropLast, hp1len]; omega),
      decide_eq_true (show (nth l 0).2 <
        (swap l r 0 (l.length - 1)).2.length by rw [hp2len]; omega)]
    rw [fix_td_ok_true 0 cmpl cmpr hm3]
    have hQm := ftd_mirror 0 cmpl cmpr hm3
    have hQlen := ftd_length
      ((swap l r 0 (l.length - 1)).1.dropLast.set
        (nth (swap l r 0 (l.length - 1)).2 (l.length - 1)).2
        ((nth (swap l r 0 (l.length - 1)).1.dropLast
          (nth (swap l r 0 (l.length - 1)).2 (l.length - 1)).2).1,
          (nth l 0).2))
      ((vswap (swap l r 0 (l.length - 1)).2 (nth l 0).2
        (l.length - 1)).dropLast) 0 cmpl cmpr
    rw [fix_bu_ok_true cmpr (mirrored_symm hQm) (by
      rw [hQlen.2, length_dropLast, length_vswap, hp2len, hrlen]
      omega)]
    rfl

end Checked

section IsHeapAux

variable {α : Type} [Inhabited α]

/-- `Heap::is_heap_aux` returns `true` exactly when no node violates the
comparison against any of its existing children. -/
theorem is_heap_aux_iff (v : List α) (cmp : α → α → Bool) :
    Heap.is_heap_aux v cmp = true ↔
    ∀ i c, c < v.length → ChildOf i c → cmp (nth v i) (nth v c) = false := by
  unfold Heap.is_heap_aux
  by_cases h0 : v.length > 0
  · rw [if_pos h0, List.all_eq_true]
    constructor
    · intro hall i c hc hcc
      have hi_lt : i < v.length - 1 := by
        rcases hcc with h | h <;> omega
      have hf := hall i (List.mem_range.mpr hi_lt)
      simp only at hf
      by_cases hr2 : 2 * i + 2 ≤ v.length - 1
      · rw [if_pos hr2] at hf
        simp only [Bool.and_eq_true, Bool.not_eq_true'] at hf
        rcases hcc with h | h <;> subst h
        · exact hf.1
        · exact hf.2
      · rw [if_neg hr2] at hf
        by_cases hl1 : 2 * i + 1 ≤ v.length - 1
        · rw [if_pos hl1] at hf
          simp only [Bool.not_eq_true'] at hf
          rcases hcc with h | h <;> subst h
          · exact hf
          · omega
        · rcases hcc with h | h <;> subst h <;> omega
    · intro hP i hi
      rw [List.mem_range] at hi
      simp only
      by_cases hr2 : 2 * i + 2 ≤ v.length - 1
      · rw [if_pos hr2]
        simp only [Bool.and_eq_true, Bool.not_eq_true']
        exact ⟨hP i (2 * i + 1) (by omega) (Or.inl rfl),
          hP i (2 * i + 2) (by omega) (Or.inr rfl)⟩
      · rw [if_neg hr2]
        by_cases hl1 : 2 * i + 1 ≤ v.length - 1
        · rw [if_pos hl1]
          simp only [Bool.not_eq_true']
          exact hP i (2 * i + 1) (by omega) (Or.inl rfl)
        · rw [if_neg hl1]
  · rw [if_neg h0]
    constructor
    · intro _ i c hc _
      omega
    · intro _
      rfl

end IsHeapAux

section Observations

open DoubleHeap (del_aux)

variable {α : Type} [Inhabited α] [LinearOrder α]

omit [LinearOrder α] in
theorem root_mem {v : List (α × Nat)} (h0 : 0 < v.length) :
    (nth v 0).1 ∈ v.map Prod.fst := by
  rw [nth_eq_getElem v 0 h0]
  exact List.mem_map_of_mem _ (v.getElem_mem h0)

omit [LinearOrder α] in
theorem heap_root_le_mem (le : α → α → Prop)
    (htrans : ∀ a b c, le a b → le b c → le a c) (hrefl : ∀ a, le a a)
    {v : List (α × Nat)} (hv : HeapProp le v) :
    ∀ x ∈ v.map Prod.fst, le (nth v 0).1 x := by
  intro x hx
  obtain ⟨s, hs, rfl⟩ := List.mem_map.mp hx
  obtain ⟨i, hi, rfl⟩ := List.mem_iff_getElem.mp hs
  rw [← nth_eq_getElem v i hi]
  exact root_le_all le htrans hrefl hv i hi

/-- A reachable queue's reported minimum is determined by its contents. -/
theorem min_det {h1 h2 : DoubleHeap α} (hr1 : Reachable h1)
    (hr2 : Reachable h2)
    (hp : (h1.min_array.map Prod.fst).Perm (h2.min_array.map Prod.fst)) :
    h1.min = h2.min := by
  have hlen : h1.min_array.length = h2.min_array.length := by
    have := hp.length_eq
    simpa using this
  by_cases h0 : h1.min_array.length = 0
  · simp [DoubleHeap.min, DoubleHeap.size, h0, hlen ▸ h0]
  · have hpos1 : 0 < h1.min_array.length := by omega
    have hpos2 : 0 < h2.min_array.length := by omega
    have inv1 := reachable_inv hr1
    have inv2 := reachable_inv hr2
    have hle1 := heap_root_le_mem (fun a b => a ≤ b)
      (fun a b c => le_trans) (fun a => le_refl a) inv1.2.1
    have hle2 := heap_root_le_mem (fun a b => a ≤ b)
      (fun a b c => le_trans) (fun a => le_refl a) inv2.2.1
    have h12 : (nth h1.min_array 0).1 ≤ (nth h2.min_array 0).1 :=
      hle1 _ (hp.mem_iff.mpr (root_mem hpos2))
    have h21 : (nth h2.min_array 0).1 ≤ (nth h1.min_array 0).1 :=
      hle2 _ (hp.mem_iff.mp (root_mem hpos1))
    have heq := le_antisymm h12 h21
    have h02 : ¬ h2.min_array = [] := by
      intro he
      rw [he] at hlen
      simp at hlen
      simp [hlen] at h0
    simp [DoubleHeap.min, DoubleHeap.size, h0, h02, heq]

/-- A reachable queue's reported maximum is determined by the contents of
its max-array. -/
theorem max_det {h1 h2 : DoubleHeap α} (hr1 : Reachable h1)
    (hr2 : Reachable h2)
    (hp : (h1.max_array.map Prod.fst).Perm (h2.max_array.map Prod.fst))
    (hsz : h1.min_array.length = h2.min_array.length) :
    h1.max = h2.max := by
  have hlen : h1.max_array.length = h2.max_array.length := by
    have := hp.length_eq
    simpa using this
  by_cases h0 : h1.min_array.length = 0
  · simp [DoubleHeap.max, DoubleHeap.size, h0, hsz ▸ h0]
  · have inv1 := reachable_inv hr1
    have inv2 := reachable_inv hr2
    have hpos1 : 0 < h1.max_array.length := by
      rw [← inv1.1.1]
      omega
    have hpos2 : 0 < h2.max_array.length := by omega
    have hle1 := heap_root_le_mem (fun a b => b ≤ a)
      (fun a b c hx hy => le_trans hy hx) (fun a => le_refl a) inv1.2.2
    have hle2 := heap_root_le_mem (fun a b => b ≤ a)
      (fun a b c hx hy => le_trans hy hx) (fun a => le_refl a) inv2.2.2
    have h12 : (nth h2.max_array 0).1 ≤ (nth h1.max_array 0).1 :=
      hle1 _ (hp.mem_iff.mpr (root_mem hpos2))
    have h21 : (nth h1.max_array 0).1 ≤ (nth h2.max_array 0).1 :=
      hle2 _ (hp.mem_iff.mp (root_mem hpos1))
    have heq := le_antisymm h21 h12
    have h02 : ¬ h2.min_array = [] := by
      intro he
      rw [he] at hsz
      simp at hsz
      simp [hsz] at h0
    simp [DoubleHeap.max, DoubleHeap.size, h0, h02, heq]

/-- Deleting the minimum returns exactly what `min` reports. -/
theorem del_min_fst {h : DoubleHeap α} (hr : Reachable h) :
    h.del_min.1 = h.min := by
  obtain ⟨hm, hlmin, hlmax⟩ := reachable_inv hr
  have hd := del_aux_main (fun a b => a ≤ b) ltb gtb
    (fun a b => ltb_false_iff a b) (fun a b => gtb_eq_ltb a b)
    (fun a b hn => le_of_not_le hn) (fun a b c => le_trans)
    (fun a => le_refl a) hm hlmin hlmax
  by_cases h0 : h.min_array.length = 0
  · show (del_aux h.min_array h.max_array ltb gtb).1 = _
    rw [hd.2.2.2.1 h0]
    simp [DoubleHeap.min, DoubleHeap.size, h0]
  · show (del_aux h.min_array h.max_array ltb gtb).1 = _
    rw [(hd.2.2.2.2 (by omega)).1]
    simp [DoubleHeap.min, DoubleHeap.size, h0]

/-- Deleting the maximum returns exactly what `max` reports. -/
theorem del_max_fst {h : DoubleHeap α} (hr : Reachable h) :
    h.del_max.1 = h.max := by
  obtain ⟨hm, hlmin, hlmax⟩ := reachable_inv hr
  have hd := del_aux_main (fun a b => b ≤ a) gtb ltb
    (fun a b => gtb_false_iff a b) (fun a b => ltb_eq_gtb a b)
    (fun a b hn => le_of_not_le hn) (fun a b c h1 h2 => le_trans h2 h1)
    (fun a => le_refl a) (mirrored_symm hm) hlmax hlmin
  have hlen : h.max_array.length = h.min_array.length := hm.1.symm
  by_cases h0 : h.max_array.length = 0
  · have h0x : h.min_array.length = 0 := by omega
    show (del_aux h.max_array h.min_array gtb ltb).1 = _
    rw [hd.2.2.2.1 h0]
    simp [DoubleHeap.max, DoubleHeap.size, h0x]
  · have h0x : ¬ h.min_array.length = 0 := by omega
    show (del_aux h.max_array h.min_array gtb ltb).1 = _
    rw [(hd.2.2.2.2 (by omega)).1]
    simp [DoubleHeap.max, DoubleHeap.size, h0x]

end Observations

section Bridge

variable {α : Type} [Inhabited α]

theorem nth_map_fst (v : List (α × Nat)) {i : Nat} (hi : i < v.length) :
    nth (v.map Prod.fst) i = (nth v i).1 := by
  rw [nth_eq_getElem (v.map Prod.fst) i (by simpa using hi),
    nth_eq_getElem v i hi]
  simp

/-- The executable validity check of `Heap::is_heap_aux`, run on the values
of a slot array, agrees with the propositional heap-shape invariant. -/
theorem is_heap_aux_heapProp (le : α → α → Prop) (cmp : α → α → Bool)
    (hc : ∀ a b, cmp a b = false ↔ le a b) (v : List (α × Nat)) :
    Heap.is_heap_aux (v.map Prod.fst) cmp = true ↔ HeapProp le v := by
  rw [is_heap_aux_iff]
  constructor
  · intro hP c hcl hc0 _
    have hpar : ChildOf ((c - 1) / 2) c := by
      unfold ChildOf
      omega
    have hx := hP ((c - 1) / 2) c (by simpa using hcl) hpar
    rw [nth_map_fst v (show (c - 1) / 2 < v.length by omega),
      nth_map_fst v hcl] at hx
    exact (hc _ _).mp hx
  · intro hP i c hcl hcc
    have hcl' : c < v.length := by simpa using hcl
    have hi' : i < v.length := by
      rcases hcc with h | h <;> omega
    have h0c : 0 < c := by rcases hcc with h | h <;> omega
    have hpi : (c - 1) / 2 = i := by rcases hcc with h | h <;> omega
    rw [nth_map_fst v hi', nth_map_fst v hcl', hc]
    have hx := hP c hcl' h0c (by omega)
    rwa [hpi] at hx

/-- Every value stored in the mirror array also occurs in the primary
array. -/
theorem mirrored_vals_mem {l r : List (α × Nat)} (hm : Mirrored l r) :
    ∀ x ∈ r.map Prod.fst, x ∈ l.map Prod.fst := by
  intro x hx
  obtain ⟨s, hs, rfl⟩ := List.mem_map.mp hx
  obtain ⟨j, hj, rfl⟩ := List.mem_iff_getElem.mp hs
  obtain ⟨hb1, hb2, hb3⟩ := hm.2.2 j hj
  rw [← nth_eq_getElem r j hj, ← hb3]
  refine List.mem_map_of_mem _ ?_
  rw [nth_eq_getElem l _ hb1]
  exact l.getElem_mem hb1

end Bridge

section Claims

open DoubleHeap (del_aux)

/-- C1: after every public mutating operation (`ins`, `ins_all`,
`make_heap`, `del_min`, `del_max`) on any reachable `DoubleHeap`, the
min-array passes the min-heap validity check (no parent greater than an
existing child) and the max-array passes the max-heap validity check (no
parent less than an existing child); this covers in particular deletions in
which the element removed from the mirror array was not at that array's
last slot. -/
theorem claim_C1 {α : Type} [Inhabited α] [LinearOrder α] {h : DoubleHeap α}
    (hr : Reachable h) (x : α) (v : List α) :
    ValidShapes (h.ins x) ∧ ValidShapes (h.ins_all v) ∧
    ValidShapes (DoubleHeap.make_heap v : DoubleHeap α) ∧
    ValidShapes h.del_min.2 ∧ ValidShapes h.del_max.2 := by
  have key : ∀ g : DoubleHeap α, Reachable g → ValidShapes g := by
    intro g hg
    obtain ⟨-, hmin, hmax⟩ := reachable_inv hg
    constructor
    · exact (is_heap_aux_heapProp (fun a b => a ≤ b) gtb
        (fun a b => gtb_false_iff a b) _).mpr hmin
    · exact (is_heap_aux_heapProp (fun a b => b ≤ a) ltb
        (fun a b => ltb_false_iff a b) _).mpr hmax
  exact ⟨key _ (Reachable.ins h x hr), key _ (Reachable.ins_all h v hr),
    key _ (Reachable.make_heap v), key _ (Reachable.del_min h hr),
    key _ (Reachable.del_max h hr)⟩

theorem claim_C1_witness :
    ValidShapes ((DoubleHeap.new : DoubleHeap Nat).ins 2) ∧
    ValidShapes ((DoubleHeap.new : DoubleHeap Nat).ins_all [5, 1]) ∧
    ValidShapes (DoubleHeap.make_heap [5, 1] : DoubleHeap Nat) ∧
    ValidShapes (DoubleHeap.new : DoubleHeap Nat).del_min.2 ∧
    ValidShapes (DoubleHeap.new : DoubleHeap Nat).del_max.2 :=
  claim_C1 Reachable.new 2 [5, 1]

/-- C2: after every public operation on any reachable `DoubleHeap` the
mirror invariant holds: the two arrays have equal length, every mirror
index is in bounds, `max_array[min_array[i].mirror].mirror = i` with equal
stored values, and symmetrically for every index of `max_array`. -/
theorem claim_C2 {α : Type} [Inhabited α] [LinearOrder α] {h : DoubleHeap α}
    (hr : Reachable h) (x : α) (v : List α) :
    Mirrored h.min_array h.max_array ∧
    Mirrored (h.ins x).min_array (h.ins x).max_array ∧
    Mirrored (h.ins_all v).min_array (h.ins_all v).max_array ∧
    Mirrored (DoubleHeap.make_heap v : DoubleHeap α).min_array
      (DoubleHeap.make_heap v : DoubleHeap α).max_array ∧
    Mirrored h.del_min.2.min_array h.del_min.2.max_array ∧
    Mirrored h.del_max.2.min_array h.del_max.2.max_array :=
  ⟨(reachable_inv hr).1, (reachable_inv (Reachable.ins h x hr)).1,
    (reachable_inv (Reachable.ins_all h v hr)).1,
    (reachable_inv (Reachable.make_heap v)).1,
    (reachable_inv (Reachable.del_min h hr)).1,
    (reachable_inv (Reachable.del_max h hr)).1⟩

theorem claim_C2_witness :
    Mirrored (DoubleHeap.new : DoubleHeap Nat).min_array
      (DoubleHeap.new : DoubleHeap Nat).max_array ∧
    Mirrored ((DoubleHeap.new : DoubleHeap Nat).ins 2).min_array
      ((DoubleHeap.new : DoubleHeap Nat).ins 2).max_array ∧
    Mirrored ((DoubleHeap.new : DoubleHeap Nat).ins_all [3, 1]).min_array
      ((DoubleHeap.new : DoubleHeap Nat).ins_all [3, 1]).max_array ∧
    Mirrored (DoubleHeap.make_heap [3, 1] : DoubleHeap Nat).min_array
      (DoubleHeap.make_heap [3, 1] : DoubleHeap Nat).max_array ∧
    Mirrored (DoubleHeap.new : DoubleHeap Nat).del_min.2.min_array
      (DoubleHeap.new : DoubleHeap Nat).del_min.2.max_array ∧
    Mirrored (DoubleHeap.new : DoubleHeap Nat).del_max.2.min_array
      (DoubleHeap.new : DoubleHeap Nat).del_max.2.max_array :=
  claim_C2 Reachable.new 2 [3, 1]

/-- C3: extremal correctness on every reachable state: if `del_min` returns
`some m`, no element remaining in either array compares less than `m`;
symmetrically, if `del_max` returns `some m`, no remaining element compares
greater than `m`. -/
theorem claim_C3 {α : Type} [Inhabited α] [LinearOrder α] {h : DoubleHeap α}
    (hr : Reachable h) (m : α) :
    (h.del_min.1 = some m →
      (∀ x ∈ h.del_min.2.min_array.map Prod.fst, ¬ x < m) ∧
      (∀ x ∈ h.del_min.2.max_array.map Prod.fst, ¬ x < m)) ∧
    (h.del_max.1 = some m →
      (∀ x ∈ h.del_max.2.min_array.map Prod.fst, ¬ m < x) ∧
      (∀ x ∈ h.del_max.2.max_array.map Prod.fst, ¬ m < x)) := by
  obtain ⟨hm, hlmin, hlmax⟩ := reachable_inv hr
  constructor
  · intro hsome
    have hsome' : (del_aux h.min_array h.max_array ltb gtb).1 = some m :=
      hsome
    have hd := del_aux_main (fun a b => a ≤ b) ltb gtb
      (fun a b => ltb_false_iff a b) (fun a b => gtb_eq_ltb a b)
      (fun a b hn => le_of_not_le hn) (fun a b c => le_trans)
      (fun a => le_refl a) hm hlmin hlmax
    by_cases h0 : h.min_array.length = 0
    · rw [hd.2.2.2.1 h0] at hsome'
      exact absurd hsome' (by simp)
    · have hfacts := hd.2.2.2.2 (by omega)
      have hmeq : (nth h.min_array 0).1 = m :=
        Option.some.inj (hfacts.1.symm.trans hsome')
      have hle := heap_root_le_mem (fun a b => a ≤ b)
        (fun a b c => le_trans) (fun a => le_refl a) hlmin
      constructor
      · intro x hx
        have hx0 : x ∈ (del_aux h.min_array h.max_array ltb
            gtb).2.1.map Prod.fst := hx
        have hx' := hfacts.2.2.2.1.mem_iff.mp (List.mem_cons_of_mem _ hx0)
        have hlex := hle _ hx'
        rw [hmeq] at hlex
        exact not_lt.mpr hlex
      · intro x hx
        have hx0 : x ∈ (del_aux h.min_array h.max_array ltb
            gtb).2.2.map Prod.fst := hx
        have hxr := hfacts.2.2.2.2.mem_iff.mp (List.mem_cons_of_mem _ hx0)
        have hx' := mirrored_vals_mem hm _ hxr
        have hlex := hle _ hx'
        rw [hmeq] at hlex
        exact not_lt.mpr hlex
  · intro hsome
    have hsome' : (del_aux h.max_array h.min_array gtb ltb).1 = some m :=
      hsome
    have hd := del_aux_main (fun a b => b ≤ a) gtb ltb
      (fun a b => gtb_false_iff a b) (fun a b => ltb_eq_gtb a b)
      (fun a b hn => le_of_not_le hn) (fun a b c h1 h2 => le_trans h2 h1)
      (fun a => le_refl a) (mirrored_symm hm) hlmax hlmin
    by_cases h0 : h.max_array.length = 0
    · rw [hd.2.2.2.1 h0] at hsome'
      exact absurd hsome' (by simp)
    · have hfacts := hd.2.2.2.2 (by omega)
      have hmeq : (nth h.max_array 0).1 = m :=
        Option.some.inj (hfacts.1.symm.trans hsome')
      have hle := heap_root_le_mem (fun a b => b ≤ a)
        (fun a b c hx hy => le_trans hy hx) (fun a => le_refl a) hlmax
      constructor
      · intro x hx
        have hx0 : x ∈ (del_aux h.max_array h.min_array gtb
            ltb).2.2.map Prod.fst := hx
        have hxr := hfacts.2.2.2.2.mem_iff.mp (List.mem_cons_of_mem _ hx0)
        have hx' := mirrored_vals_mem (mirrored_symm hm) _ hxr
        have hlex := hle _ hx'
        rw [hmeq] at hlex
        exact not_lt.mpr hlex
      · intro x hx
        have hx0 : x ∈ (del_aux h.max_array h.min_array gtb
            ltb).2.1.map Prod.fst := hx
        have hx' := hfacts.2.2.2.1.mem_iff.mp (List.mem_cons_of_mem _ hx0)
        have hlex := hle _ hx'
        rw [hmeq] at hlex
        exact not_lt.mpr hlex

theorem claim_C3_witness :
    (DoubleHeap.make_heap [2, 1, 3] : DoubleHeap Nat).del_min.1 = some 1 ∧
    2 ∈ (DoubleHeap.make_heap [2, 1, 3] :
      DoubleHeap Nat).del_min.2.min_array.map Prod.fst ∧
    ¬ 2 < 1 :=
  ⟨by decide, by decide,
    ((claim_C3 (Reachable.make_heap [2, 1, 3]) 1).1 (by decide)).1 2
      (by decide)⟩

/-- C4: building from `[99, 97, 95, 94, 96]` via `make_heap` gives
`min = some 94`, `max = some 99`, `size = 5`; five successive `del_max`
calls return 99, 97, 96, 95, 94 in that order and the queue is then empty
(both arrays empty). -/
theorem claim_C4 :
    (DoubleHeap.make_heap [99, 97, 95, 94, 96] : DoubleHeap Nat).min =
      some 94 ∧
    (DoubleHeap.make_heap [99, 97, 95, 94, 96] : DoubleHeap Nat).max =
      some 99 ∧
    (DoubleHeap.make_heap [99, 97, 95, 94, 96] : DoubleHeap Nat).size = 5 ∧
    (DoubleHeap.make_heap [99, 97, 95, 94, 96] : DoubleHeap Nat).del_max.1 =
      some 99 ∧
    (DoubleHeap.make_heap [99, 97, 95, 94, 96] :
      DoubleHeap Nat).del_max.2.del_max.1 = some 97 ∧
    (DoubleHeap.make_heap [99, 97, 95, 94, 96] :
      DoubleHeap Nat).del_max.2.del_max.2.del_max.1 = some 96 ∧
    (DoubleHeap.make_heap [99, 97, 95, 94, 96] :
      DoubleHeap Nat).del_max.2.del_max.2.del_max.2.del_max.1 = some 95 ∧
    (DoubleHeap.make_heap [99, 97, 95, 94, 96] :
      DoubleHeap Nat).del_max.2.del_max.2.del_max.2.del_max.2.del_max.1 =
      some 94 ∧
    DoubleHeap.min_array ((DoubleHeap.make_heap [99, 97, 95, 94, 96] :
      DoubleHeap Nat).del_max.2.del_max.2.del_max.2.del_max.2.del_max.2) =
      [] ∧
    DoubleHeap.max_array ((DoubleHeap.make_heap [99, 97, 95, 94, 96] :
      DoubleHeap Nat).del_max.2.del_max.2.del_max.2.del_max.2.del_max.2) =
      [] ∧
    DoubleHeap.is_empty ((DoubleHeap.make_heap [99, 97, 95, 94, 96] :
      DoubleHeap Nat).del_max.2.del_max.2.del_max.2.del_max.2.del_max.2) =
      true := by
  decide

/-- C5: `make_heap v` contains exactly the elements of `v` (each array's
values are a permutation of `v`) and is observationally equivalent in
`size`, `min`, `max` and contents to `new().ins_all v`, which in turn is
definitionally equal to inserting each element of `v` in order via
repeated `ins`. -/
theorem claim_C5 {α : Type} [Inhabited α] [LinearOrder α] (v : List α) :
    ((DoubleHeap.make_heap v : DoubleHeap α).min_array.map Prod.fst).Perm
      v ∧
    ((DoubleHeap.make_heap v : DoubleHeap α).max_array.map Prod.fst).Perm
      v ∧
    (((DoubleHeap.new : DoubleHeap α).ins_all v).min_array.map
      Prod.fst).Perm v ∧
    (((DoubleHeap.new : DoubleHeap α).ins_all v).max_array.map
      Prod.fst).Perm v ∧
    (DoubleHeap.new : DoubleHeap α).ins_all v =
      v.foldl DoubleHeap.ins DoubleHeap.new ∧
    (DoubleHeap.make_heap v : DoubleHeap α).size =
      ((DoubleHeap.new : DoubleHeap α).ins_all v).size ∧
    (DoubleHeap.make_heap v : DoubleHeap α).min =
      ((DoubleHeap.new : DoubleHeap α).ins_all v).min ∧
    (DoubleHeap.make_heap v : DoubleHeap α).max =
      ((DoubleHeap.new : DoubleHeap α).ins_all v).max := by
  have hmk := make_heap_main v
  have hia := ins_all_main v (reachable_inv (Reachable.new : Reachable
    (DoubleHeap.new : DoubleHeap α)))
  have hiamin : (((DoubleHeap.new : DoubleHeap α).ins_all v).min_array.map
      Prod.fst).Perm v := by
    have hx := hia.2.1
    simpa [DoubleHeap.new] using hx
  have hiamax : (((DoubleHeap.new : DoubleHeap α).ins_all v).max_array.map
      Prod.fst).Perm v := by
    have hx := hia.2.2
    simpa [DoubleHeap.new] using hx
  have hlenia : ((DoubleHeap.new : DoubleHeap α).ins_all
      v).min_array.length = v.length := by
    have hx := hiamin.length_eq
    simpa using hx
  have hszeq : (DoubleHeap.make_heap v : DoubleHeap α).size =
      ((DoubleHeap.new : DoubleHeap α).ins_all v).size := by
    show (DoubleHeap.make_heap v : DoubleHeap α).min_array.length = _
    rw [hmk.2.1]
    exact hlenia.symm
  refine ⟨hmk.2.2.2.1, hmk.2.2.2.2, hiamin, hiamax, rfl, hszeq, ?_, ?_⟩
  · exact min_det (Reachable.make_heap v)
      (Reachable.ins_all DoubleHeap.new v Reachable.new)
      (hmk.2.2.2.1.trans hiamin.symm)
  · refine max_det (Reachable.make_heap v)
      (Reachable.ins_all DoubleHeap.new v Reachable.new)
      (hmk.2.2.2.2.trans hiamax.symm) ?_
    rw [hmk.2.1, hlenia]

/-- C6: round-trip on any reachable queue: if `del_min` returns `some m`,
re-inserting `m` via `ins` yields arrays whose value multisets equal those
before the deletion; likewise for `del_max`. -/
theorem claim_C6 {α : Type} [Inhabited α] [LinearOrder α] {h : DoubleHeap α}
    (hr : Reachable h) (m : α) :
    (h.del_min.1 = some m →
      ((h.del_min.2.ins m).min_array.map Prod.fst).Perm
        (h.min_array.map Prod.fst) ∧
      ((h.del_min.2.ins m).max_array.map Prod.fst).Perm
        (h.max_array.map Prod.fst)) ∧
    (h.del_max.1 = some m →
      ((h.del_max.2.ins m).min_array.map Prod.fst).Perm
        (h.min_array.map Prod.fst) ∧
      ((h.del_max.2.ins m).max_array.map Prod.fst).Perm
        (h.max_array.map Prod.fst)) := by
  obtain ⟨hm, hlmin, hlmax⟩ := reachable_inv hr
  constructor
  · intro hsome
    have hsome' : (del_aux h.min_array h.max_array ltb gtb).1 = some m :=
      hsome
    have hd := del_aux_main (fun a b => a ≤ b) ltb gtb
      (fun a b => ltb_false_iff a b) (fun a b => gtb_eq_ltb a b)
      (fun a b hn => le_of_not_le hn) (fun a b c => le_trans)
      (fun a => le_refl a) hm hlmin hlmax
    by_cases h0 : h.min_array.length = 0
    · rw [hd.2.2.2.1 h0] at hsome'
      exact absurd hsome' (by simp)
    · have hfacts := hd.2.2.2.2 (by omega)
      have hmeq : (nth h.min_array 0).1 = m :=
        Option.some.inj (hfacts.1.symm.trans hsome')
      have hins := ins_main m (reachable_inv (Reachable.del_min h hr))
      have hp1 : ((nth h.min_array 0).1 ::
          h.del_min.2.min_array.map Prod.fst).Perm
          (h.min_array.map Prod.fst) := hfacts.2.2.2.1
      have hp2 : ((nth h.min_array 0).1 ::
          h.del_min.2.max_array.map Prod.fst).Perm
          (h.max_array.map Prod.fst) := hfacts.2.2.2.2
      rw [hmeq] at hp1 hp2
      exact ⟨hins.2.2.2.1.trans hp1, hins.2.2.2.2.trans hp2⟩
  · intro hsome
    have hsome' : (del_aux h.max_array h.min_array gtb ltb).1 = some m :=
      hsome
    have hd := del_aux_main (fun a b => b ≤ a) gtb ltb
      (fun a b => gtb_false_iff a b) (fun a b => ltb_eq_gtb a b)
      (fun a b hn => le_of_not_le hn) (fun a b c h1 h2 => le_trans h2 h1)
      (fun a => le_refl a) (mirrored_symm hm) hlmax hlmin
    by_cases h0 : h.max_array.length = 0
    · rw [hd.2.2.2.1 h0] at hsome'
      exact absurd hsome' (by simp)
    · have hfacts := hd.2.2.2.2 (by omega)
      have hmeq : (nth h.max_array 0).1 = m :=
        Option.some.inj (hfacts.1.symm.trans hsome')
      have hins := ins_main m (reachable_inv (Reachable.del_max h hr))
      have hp1 : ((nth h.max_array 0).1 ::
          h.del_max.2.max_array.map Prod.fst).Perm
          (h.max_array.map Prod.fst) := hfacts.2.2.2.1
      have hp2 : ((nth h.max_array 0).1 ::
          h.del_max.2.min_array.map Prod.fst).Perm
          (h.min_array.map Prod.fst) := hfacts.2.2.2.2
      rw [hmeq] at hp1 hp2
      exact ⟨hins.2.2.2.1.trans hp2, hins.2.2.2.2.trans hp1⟩

theorem claim_C6_witness :
    (DoubleHeap.make_heap [2, 1] : DoubleHeap Nat).del_min.1 = some 1 ∧
    ((((DoubleHeap.make_heap [2, 1] : DoubleHeap Nat).del_min.2.ins
      1).min_array.map Prod.fst).Perm
      ((DoubleHeap.make_heap [2, 1] : DoubleHeap Nat).min_array.map
        Prod.fst) ∧
    (((DoubleHeap.make_heap [2, 1] : DoubleHeap Nat).del_min.2.ins
      1).max_array.map Prod.fst).Perm
      ((DoubleHeap.make_heap [2, 1] : DoubleHeap Nat).max_array.map
        Prod.fst)) :=
  ⟨by decide, (claim_C6 (Reachable.make_heap [2, 1]) 1).1 (by decide)⟩

/-- C7: on a reachable queue of size 0, `min`, `max`, `del_min` and
`del_max` all return `none` and the deletions leave the queue unchanged;
a freshly constructed queue is exactly in this state, with both arrays
empty and `is_empty = true`. -/
theorem claim_C7 {α : Type} [Inhabited α] [LinearOrder α] {h : DoubleHeap α}
    (hr : Reachable h) (hsz : h.size = 0) :
    h.min = none ∧ h.max = none ∧ h.del_min = (none, h) ∧
    h.del_max = (none, h) ∧ h.is_empty = true ∧
    (DoubleHeap.new : DoubleHeap α).size = 0 ∧
    (DoubleHeap.new : DoubleHeap α).is_empty = true ∧
    (DoubleHeap.new : DoubleHeap α).min_array = [] ∧
    (DoubleHeap.new : DoubleHeap α).max_array = [] := by
  have hsz' : h.min_array.length = 0 := hsz
  have hmax0 : h.max_array.length = 0 := by
    have hx := (reachable_inv hr).1.1
    omega
  have harr : h.min_array = [] := List.length_eq_zero.mp hsz'
  have hdl : del_aux h.min_array h.max_array ltb gtb =
      (none, h.min_array, h.max_array) := by
    simp only [del_aux]
    rw [if_pos hsz']
  have hdr : del_aux h.max_array h.min_array gtb ltb =
      (none, h.max_array, h.min_array) := by
    simp only [del_aux]
    rw [if_pos hmax0]
  refine ⟨?_, ?_, ?_, ?_, ?_, rfl, rfl, rfl, rfl⟩
  · simp [DoubleHeap.min, DoubleHeap.size, hsz']
  · simp [DoubleHeap.max, DoubleHeap.size, hsz']
  · show ((del_aux h.min_array h.max_array ltb gtb).1,
      (⟨(del_aux h.min_array h.max_array ltb gtb).2.1,
        (del_aux h.min_array h.max_array ltb gtb).2.2⟩ : DoubleHeap α)) =
      (none, h)
    rw [hdl]
  · show ((del_aux h.max_array h.min_array gtb ltb).1,
      (⟨(del_aux h.max_array h.min_array gtb ltb).2.2,
        (del_aux h.max_array h.min_array gtb ltb).2.1⟩ : DoubleHeap α)) =
      (none, h)
    rw [hdr]
  · show h.min_array.isEmpty = true
    rw [harr]
    rfl

theorem claim_C7_witness :
    (DoubleHeap.new : DoubleHeap Nat).size = 0 ∧
    ((DoubleHeap.new : DoubleHeap Nat).min = none ∧
      (DoubleHeap.new : DoubleHeap Nat).max = none ∧
      (DoubleHeap.new : DoubleHeap Nat).del_min =
        (none, (DoubleHeap.new : DoubleHeap Nat)) ∧
      (DoubleHeap.new : DoubleHeap Nat).del_max =
        (none, (DoubleHeap.new : DoubleHeap Nat)) ∧
      (DoubleHeap.new : DoubleHeap Nat).is_empty = true ∧
      (DoubleHeap.new : DoubleHeap Nat).size = 0 ∧
      (DoubleHeap.new : DoubleHeap Nat).is_empty = true ∧
      (DoubleHeap.new : DoubleHeap Nat).min_array = [] ∧
      (DoubleHeap.new : DoubleHeap Nat).max_array = []) :=
  ⟨rfl, claim_C7 Reachable.new rfl⟩

/-- C8: `Heap::is_heap_aux` is a pure function that returns `true` if and
only if for every index `i` with an existing child `c ∈ {2i+1, 2i+2}`,
`cmp v[i] v[c]` is `false`. -/
theorem claim_C8 {α : Type} [Inhabited α] (v : List α)
    (cmp : α → α → Bool) :
    Heap.is_heap_aux v cmp = true ↔
    ∀ i c, c < v.length → ChildOf i c → cmp (nth v i) (nth v c) = false :=
  is_heap_aux_iff v cmp

/-- C9: both sift loops terminate within their stated iteration bounds: the
bottom-up loop runs at most `i` steps (the index strictly decreases toward
the root) and the top-down loop at most `l.length - i` steps (the index
strictly increases, bounded by the array length), so running either loop
with any fuel beyond that bound gives exactly the result of the embedded
operation. -/
theorem claim_C9 {α : Type} [Inhabited α] (l r : List (α × Nat)) (i : Nat)
    (cmp lt gt : α → α → Bool) (fuel fuel' : Nat)
    (hbu : i < fuel) (htd : l.length - i < fuel') :
    DoubleHeap.fix_bu_go fuel l r i cmp =
      DoubleHeap.fix_heap_property_bottom_up_aux l r i cmp ∧
    DoubleHeap.fix_td_go fuel' l r i lt gt =
      DoubleHeap.fix_heap_property_top_down_aux l r i lt gt := by
  constructor
  · exact fix_bu_go_congr l r i cmp hbu (by omega)
  · exact fix_td_go_congr l r i lt gt htd (by omega)

theorem claim_C9_witness :
    1 < 5 ∧ [((3 : Nat), 1), (1, 0)].length - 1 < 9 ∧
    (DoubleHeap.fix_bu_go 5 [((3 : Nat), 1), (1, 0)] [(1, 1), (3, 0)] 1 ltb =
      DoubleHeap.fix_heap_property_bottom_up_aux [((3 : Nat), 1), (1, 0)]
        [(1, 1), (3, 0)] 1 ltb ∧
    DoubleHeap.fix_td_go 9 [((3 : Nat), 1), (1, 0)] [(1, 1), (3, 0)] 1
        ltb gtb =
      DoubleHeap.fix_heap_property_top_down_aux [((3 : Nat), 1), (1, 0)]
        [(1, 1), (3, 0)] 1 ltb gtb) :=
  ⟨by decide, by decide,
    claim_C9 [((3 : Nat), 1), (1, 0)] [(1, 1), (3, 0)] 1 ltb ltb gtb 5 9
      (by decide) (by decide)⟩

/-- C10: for every mirrored pair of arrays of length at least two, every
index access performed by `del_aux` stays in bounds (the executable
bounds-check `del_aux_ok` returns `true`, in both the `del_min` and the
`del_max` orientation); in particular, in the branch where the popped
element's mirror index differs from the last index, the mirror field of the
swapped-in last slot of the mirror array points strictly below the popped
last index, so the access `l[r[last].1]` after the pop is in bounds. -/
theorem claim_C10 {α : Type} [Inhabited α] (l r : List (α × Nat))
    (cmpl cmpr : α → α → Bool) (hm : Mirrored l r) (h2 : 2 ≤ l.length) :
    DoubleHeap.del_aux_ok l r cmpl cmpr = true ∧
    DoubleHeap.del_aux_ok r l cmpr cmpl = true ∧
    ((nth (DoubleHeap.swap l r 0 (l.length - 1)).1 (l.length - 1)).2 ≠
        l.length - 1 →
      (nth (DoubleHeap.swap l r 0 (l.length - 1)).2 (l.length - 1)).2 <
        l.length - 1) := by
  refine ⟨del_aux_ok_true cmpl cmpr hm h2, ?_, ?_⟩
  · have h2r : 2 ≤ r.length := by rw [← hm.1]; exact h2
    exact del_aux_ok_true cmpr cmpl (mirrored_symm hm) h2r
  · intro hri
    have hlast : l.length - 1 < l.length := by omega
    have h0l : (0 : Nat) < l.length := by omega
    have hne : (0 : Nat) ≠ l.length - 1 := by omega
    have hm1 := swap_mirror hm h0l hlast hne
    have hp2len : (DoubleHeap.swap l r 0 (l.length - 1)).2.length =
        r.length := swap_length_snd l r 0 (l.length - 1)
    have hp1len : (DoubleHeap.swap l r 0 (l.length - 1)).1.length =
        l.length := swap_length_fst l r 0 (l.length - 1)
    have hb := hm1.2.2 (l.length - 1) (by rw [hp2len, ← hm.1]; omega)
    by_cases heq : (nth (DoubleHeap.swap l r 0 (l.length - 1)).2
        (l.length - 1)).2 = l.length - 1
    · exfalso
      have hx := hb.2.1
      rw [heq] at hx
      exact hri hx
    · have hlt := hb.1
      rw [hp1len] at hlt
      omega

theorem claim_C10_witness :
    Mirrored [((1 : Nat), 1), (2, 0)] [((2 : Nat), 1), (1, 0)] ∧
    2 ≤ [((1 : Nat), 1), (2, 0)].length ∧
    DoubleHeap.del_aux_ok [((1 : Nat), 1), (2, 0)] [((2 : Nat), 1), (1, 0)]
      ltb gtb = true :=
  ⟨by decide, by decide,
    (claim_C10 [((1 : Nat), 1), (2, 0)] [((2 : Nat), 1), (1, 0)] ltb gtb
      (by decide) (by decide)).1⟩

end Claims

end Aisd
